import Mathlib

/-!
# The whisper.wasm binding: `examples/whisper.wasm/emscripten.cpp`

A shallow embedding of the four bound functions `init`, `free`, `full_default`
and `get_text`, of the worker lambda spawned by `full_default`, and of `mpow2`.

* The globals `g_worker`, `g_transcribed`, `g_contexts` and `MaxThreads` are the
  fields of `State`.  The state of the inference engine (everything behind
  `whisper.h`) is the field `world`, of an arbitrary type `W`.
* The functions of `whisper.h` that the file calls are the fields of `Engine W`:
  they are parameters of the development, never defined here.
* `std::thread` is modelled by `worker_thread`: the captured values of the lambda
  and a flag telling whether the body has run to its end.  The body touches only
  the engine and, under `g_mutex`, `g_transcribed`; the bound functions that touch
  the engine or the pool join first, so the body is one atomic step
  (`worker_finish`) that happens either on its own or inside a `join`.
* `size_t` is 32 bits wide (the file is built for wasm32), `int` is 32 bits wide.
* A run is a list of events `Op`; `trace` lists the thread events (a thread is
  started, the body of a thread ends) of a run in program order.
-/

namespace WhisperWasm

/-! ## Machine integers -/

/-- Number of values of `size_t`. -/
def SIZE_T_MOD : Nat := 2 ^ 32

/-- Pre-decrement `--index` on a `size_t`: zero wraps to the largest value. -/
def size_t_dec (index : Nat) : Nat := (index + (SIZE_T_MOD - 1)) % SIZE_T_MOD

/-- Reduction of a mathematical integer to the 32-bit two's complement `int`. -/
def wrap_int (x : Int) : Int := (x + 2 ^ 31) % 2 ^ 32 - 2 ^ 31

/-! ## `mpow2` and `MaxThreads` -/

/-- The loop `while (p <= n) p *= 2;` of `mpow2`.  One unit of fuel pays for one
evaluation of the loop condition; `none` means the fuel ran out. -/
def mpow2_loop : Nat → Int → Int → Option Int
  | 0, _, _ => none
  | fuel + 1, p, n => if p ≤ n then mpow2_loop fuel (wrap_int (p * 2)) n else some p

/-- Source function `mpow2`: `int p = 1; while (p <= n) p *= 2; return p/2;`. -/
def mpow2 (fuel : Nat) (n : Int) : Option Int :=
  (mpow2_loop fuel 1 n).map (fun p => Int.tdiv p 2)

/-- The loop of `mpow2` when a product outside the range of `int` has no value
(signed overflow is undefined): `none` also means that `p *= 2` overflowed. -/
def mpow2_loop_strict : Nat → Int → Int → Option Int
  | 0, _, _ => none
  | fuel + 1, p, n =>
    if p ≤ n then
      if -2 ^ 31 ≤ p * 2 ∧ p * 2 < 2 ^ 31 then mpow2_loop_strict fuel (p * 2) n else none
    else some p

/-- Function `mpow2` when signed overflow has no value. -/
def mpow2_strict (fuel : Nat) (n : Int) : Option Int :=
  (mpow2_loop_strict fuel 1 n).map (fun p => Int.tdiv p 2)

/-! ## Data -/

/-- A `struct whisper_context *`: `none` is `nullptr`, `some a` points to the live
engine instance `a`. -/
abbrev whisper_context_ptr := Option Nat

/-- A single precision sample, kept as its bit pattern: the binding only moves
samples around. -/
abbrev float32 := Nat

/-- The enumeration `whisper_sampling_strategy` of `whisper.h`. -/
inductive whisper_sampling_strategy where
  | WHISPER_SAMPLING_GREEDY
  | WHISPER_SAMPLING_BEAM_SEARCH
deriving DecidableEq, Repr

/-- The fields of `struct whisper_full_params` that `full_default` assigns, and the
strategy the defaults were asked for. -/
structure whisper_full_params where
  strategy : whisper_sampling_strategy
  n_threads : Int
  offset_ms : Int
  translate : Bool
  print_special : Bool
  print_progress : Bool
  print_realtime : Bool
  print_timestamps : Bool
  language : String
deriving DecidableEq, Repr

/-- The functions of `whisper.h` called by the binding, over an engine state `W`.
Each takes the engine state it runs in; those that change it return the new one. -/
structure Engine (W : Type) where
  /-- Construction: `whisper_init_from_file_with_params(path, whisper_context_default_params())`. -/
  whisper_init_from_file_with_params : W → String → whisper_context_ptr × W
  /-- Destruction: `whisper_free(ctx)`. -/
  whisper_free : W → whisper_context_ptr → W
  /-- Defaults: `whisper_full_default_params(strategy)`. -/
  whisper_full_default_params : whisper_sampling_strategy → whisper_full_params
  /-- Timings: `whisper_reset_timings(ctx)`. -/
  whisper_reset_timings : W → whisper_context_ptr → W
  /-- Transcription: `whisper_full(ctx, params, samples, n_samples)`. -/
  whisper_full : W → whisper_context_ptr → whisper_full_params → List float32 → W
  /-- Accessor: `whisper_full_n_segments(ctx)`. -/
  whisper_full_n_segments : W → whisper_context_ptr → Int
  /-- Accessor: `whisper_full_get_segment_text(ctx, i)`. -/
  whisper_full_get_segment_text : W → whisper_context_ptr → Int → String

/-- A `std::thread` that owns a thread of execution (it is joinable): the values
captured by the lambda of `full_default`, and whether its body has finished. -/
structure worker_thread where
  index : Nat
  params : whisper_full_params
  pcmf32 : List float32
  finished : Bool
deriving DecidableEq, Repr

/-- The globals of the translation unit, and the engine state. -/
structure State (W : Type) where
  /-- Global `g_worker`; `none` is a thread object that is not joinable. -/
  g_worker : Option worker_thread
  /-- Global `g_transcribed`, guarded by `g_mutex`. -/
  g_transcribed : String
  /-- Global `g_contexts`. -/
  g_contexts : List whisper_context_ptr
  /-- Global constant `MaxThreads`. -/
  MaxThreads : Int
  /-- Engine state behind `whisper.h`. -/
  world : W
deriving DecidableEq

/-- Static initialisation: `g_transcribed = ""`, `g_contexts(4, nullptr)`, a
default-constructed `g_worker`, and `MaxThreads = mpow2(hardware_concurrency())`
(the `unsigned` result converted to `int`). -/
def static_init {W : Type} (fuel : Nat) (hardware_concurrency : Nat) (w : W) :
    Option (State W) :=
  (mpow2 fuel (wrap_int (hardware_concurrency : Int))).map fun m =>
    { g_worker := none
      g_transcribed := ""
      g_contexts := List.replicate 4 none
      MaxThreads := m
      world := w }

/-! ## The worker lambda -/

/-- The local `result` of the worker lambda after its segment loop
`for (int i = 0; i < n_segments; ++i) { result += text_i; ... }`, run in engine
state `w`.  The inner token loop only feeds the locals `prob` and `prob_n`,
which are never stored, like `t_ms`. -/
def worker_result {W : Type} (E : Engine W) (w : W) (ctx : whisper_context_ptr) : String :=
  let n_segments := E.whisper_full_n_segments w ctx
  (List.range n_segments.toNat).foldl
    (fun result i => result ++ E.whisper_full_get_segment_text w ctx (i : Int)) ""

/-- Body of the lambda run by `g_worker`, from its first statement to its end:
`whisper_reset_timings`, `whisper_full`, the segment loop, and the locked
`g_transcribed += result`. -/
def worker_body {W : Type} (E : Engine W) (s : State W) (t : worker_thread) : State W :=
  let w1 := E.whisper_reset_timings s.world (s.g_contexts.getD t.index none)
  let w2 := E.whisper_full w1 (s.g_contexts.getD t.index none) t.params t.pcmf32
  let ctx := s.g_contexts.getD t.index none
  let result := worker_result E w2 ctx
  { s with world := w2, g_transcribed := s.g_transcribed ++ result }

/-- The background thread runs its body to the end, if there is one still running.
The thread object stays joinable. -/
def worker_finish {W : Type} (E : Engine W) (s : State W) : State W :=
  match s.g_worker with
  | some t =>
    if t.finished then s
    else { worker_body E s t with g_worker := some { t with finished := true } }
  | none => s

/-- The statement `if (g_worker.joinable()) { g_worker.join(); }`: block until the
body has finished; afterwards `g_worker` is not joinable. -/
def join {W : Type} (E : Engine W) (s : State W) : State W :=
  match s.g_worker with
  | some _ => { worker_finish E s with g_worker := none }
  | none => s

/-- The text that the thread held in `g_worker` appends to the mailbox when its
body ends: its local `result` while it is still running, nothing when there is no
thread or its body has already ended. -/
def pending_text {W : Type} (E : Engine W) (s : State W) : String :=
  match s.g_worker with
  | some t =>
    if t.finished then ""
    else
      worker_result E
        (E.whisper_full (E.whisper_reset_timings s.world (s.g_contexts.getD t.index none))
          (s.g_contexts.getD t.index none) t.params t.pcmf32)
        (s.g_contexts.getD t.index none)
  | none => ""

/-! ## The bound functions -/

/-- The loop of `init` from index `i` on, where `rest` is `g_contexts` from
position `i`: the first null entry is assigned the result of construction, and
the function returns there. -/
def init_loop {W : Type} (E : Engine W) (path_model : String) (s : State W) :
    List whisper_context_ptr → Nat → Nat × State W
  | [], _ => (0, s)
  | p :: rest, i =>
    if p = none then
      let r := E.whisper_init_from_file_with_params s.world path_model
      let s1 := { s with g_contexts := s.g_contexts.set i r.1, world := r.2 }
      if r.1 ≠ none then ((i + 1) % SIZE_T_MOD, s1) else (0, s1)
    else init_loop E path_model s rest (i + 1)

/-- Bound function `init`: returns the handle and the new state. -/
def init {W : Type} (E : Engine W) (s : State W) (path_model : String) : Nat × State W :=
  let s := join E s
  init_loop E path_model s s.g_contexts 0

/-- Bound function `free`. -/
def free {W : Type} (E : Engine W) (s : State W) (index : Nat) : State W :=
  let s := join E s
  let index := size_t_dec index
  if index < s.g_contexts.length then
    { s with
      world := E.whisper_free s.world (s.g_contexts.getD index none)
      g_contexts := s.g_contexts.set index none }
  else s

/-- Bound function `full_default`: returns the status and the new state.  The
argument `samples` is the content of the typed array `audio`, which the function
copies into `pcmf32`. -/
def full_default {W : Type} (E : Engine W) (s : State W) (index : Nat)
    (samples : List float32) (nthreads : Int) : Int × State W :=
  let s := join E s
  let nthreads := if nthreads = -1 then s.MaxThreads else nthreads
  let index := size_t_dec index
  if index ≥ s.g_contexts.length then (-1, s)
  else if s.g_contexts.getD index none = none then (-2, s)
  else
    let params : whisper_full_params :=
      { E.whisper_full_default_params whisper_sampling_strategy.WHISPER_SAMPLING_GREEDY with
        print_realtime := false
        print_progress := false
        print_timestamps := false
        print_special := false
        translate := false
        language := "en"
        n_threads := min nthreads (min 16 s.MaxThreads)
        offset_ms := 0 }
    let pcmf32 := samples
    (0, { s with
          g_transcribed := ""
          g_worker := some { index := index, params := params, pcmf32 := pcmf32,
                             finished := false } })

/-- Bound function `get_text`: returns the text and the new state.  The moved-from
`g_transcribed` is left empty. -/
def get_text {W : Type} (s : State W) (_index : Nat) : String × State W :=
  (s.g_transcribed, { s with g_transcribed := "" })

/-! ## Runs -/

/-- One event of a run: a call of a bound function, or the background thread
reaching the end of its body. -/
inductive Op where
  | init (path_model : String)
  | free (index : Nat)
  | full_default (index : Nat) (samples : List float32) (nthreads : Int)
  | get_text (index : Nat)
  | worker_finish
deriving DecidableEq, Repr

/-- State after one event. -/
def step {W : Type} (E : Engine W) (s : State W) : Op → State W
  | Op.init path_model => (init E s path_model).2
  | Op.free index => free E s index
  | Op.full_default index samples nthreads => (full_default E s index samples nthreads).2
  | Op.get_text index => (get_text s index).2
  | Op.worker_finish => worker_finish E s

/-- State after a sequence of events. -/
def run {W : Type} (E : Engine W) (s : State W) (ops : List Op) : State W :=
  ops.foldl (step E) s

/-- Events that read the mailbox. -/
def Op.is_get_text : Op → Bool
  | Op.get_text _ => true
  | _ => false

/-- Events after which no thread is still running, and that neither submit a job
nor read the mailbox: the thread reaching its end, and the calls of `free` and
`init`, which join. -/
def Op.completes : Op → Bool
  | Op.worker_finish => true
  | Op.free _ => true
  | Op.init _ => true
  | _ => false

/-- Events that neither read the mailbox nor submit a job, in state `s`: every
event but `get_text` and a `full_default` that returns `0`. -/
def keeps_text {W : Type} (E : Engine W) (s : State W) : Op → Bool
  | Op.get_text _ => false
  | Op.full_default index samples nthreads =>
    (full_default E s index samples nthreads).1 != 0
  | _ => true

/-- Every event of the run from `s` keeps the text, in the state it happens in. -/
def run_keeps_text {W : Type} (E : Engine W) : State W → List Op → Bool
  | _, [] => true
  | s, op :: ops => keeps_text E s op && run_keeps_text E (step E s op) ops

/-- Events that call `init`. -/
def Op.is_init : Op → Bool
  | Op.init _ => true
  | _ => false

/-- Number of positions of the pool that hold an engine. -/
def occupied {W : Type} (s : State W) : Nat :=
  s.g_contexts.countP (fun p => p.isSome)

/-- Handles returned by consecutive calls of `init`, one for each path. -/
def init_handles {W : Type} (E : Engine W) (s : State W) : List String → List Nat
  | [] => []
  | path_model :: paths =>
    (init E s path_model).1 :: init_handles E (init E s path_model).2 paths

/-! ## Thread events of a run -/

/-- Whether the body of the thread held in `g_worker` is still running. -/
def running {W : Type} (s : State W) : Bool :=
  match s.g_worker with
  | some t => !t.finished
  | none => false

/-- What happens to background threads: the body of one ends (its last statement
is the locked append to the mailbox), or one is started. -/
inductive Event where
  | task_ended
  | task_started
deriving DecidableEq, Repr

/-- Thread events of the join at the head of `init`, `free` and `full_default`
(and of the thread reaching its end on its own): a running body ends. -/
def join_events {W : Type} (s : State W) : List Event :=
  if running s then [Event.task_ended] else []

/-- Thread events of one event of a run, in program order.  In `full_default` the
join comes first and the construction of the new `std::thread` last, on the path
that returns `0`. -/
def step_events {W : Type} (E : Engine W) (s : State W) : Op → List Event
  | Op.init _ => join_events s
  | Op.free _ => join_events s
  | Op.full_default index samples nthreads =>
    join_events s ++
      (if (full_default E s index samples nthreads).1 = 0 then [Event.task_started] else [])
  | Op.get_text _ => []
  | Op.worker_finish => join_events s

/-- Thread events of a run, in order. -/
def trace {W : Type} (E : Engine W) : State W → List Op → List Event
  | _, [] => []
  | s, op :: ops => step_events E s op ++ trace E (step E s op) ops

/-- A sequence of thread events in which no thread is started while another one
is still running and none ends that is not running; the flag tells whether one is
running at the start. -/
def alternates : Bool → List Event → Bool
  | _, [] => true
  | false, Event.task_started :: rest => alternates true rest
  | true, Event.task_ended :: rest => alternates false rest
  | false, Event.task_ended :: _ => false
  | true, Event.task_started :: _ => false

/-! ## A concrete engine, for evaluating the binding -/

/-- Engine state of `demo_engine`: how often construction, destruction and
transcription have been called. -/
structure demo_world where
  constructed : Nat
  destroyed : Nat
  transcribed : Nat
deriving DecidableEq, Repr

/-- A concrete engine.  Construction fails on the empty path and otherwise returns
a fresh instance; every transcription produces the segments `segs`. -/
def demo_engine (segs : List String) : Engine demo_world where
  whisper_init_from_file_with_params := fun w path =>
    (if path = "" then none else some (w.constructed + 1),
     { w with constructed := w.constructed + 1 })
  whisper_free := fun w _ => { w with destroyed := w.destroyed + 1 }
  whisper_full_default_params := fun strategy =>
    { strategy := strategy, n_threads := 4, offset_ms := 0, translate := false,
      print_special := false, print_progress := true, print_realtime := false,
      print_timestamps := true, language := "en" }
  whisper_reset_timings := fun w _ => w
  whisper_full := fun w _ _ _ => { w with transcribed := w.transcribed + 1 }
  whisper_full_n_segments := fun w _ => if w.transcribed = 0 then 0 else (segs.length : Int)
  whisper_full_get_segment_text := fun _ _ i => segs.getD i.toNat ""

/-- A state with the given pool and mailbox, no thread, `MaxThreads = 8`, and a
fresh `demo_world`. -/
def demo_state (pool : List whisper_context_ptr) (text : String) : State demo_world :=
  { g_worker := none
    g_transcribed := text
    g_contexts := pool
    MaxThreads := 8
    world := { constructed := 0, destroyed := 0, transcribed := 0 } }

/-- A state reached by a successful `full_default` on handle `1`: the spawned
thread is still running.  Its engine produces the single segment `"x"`. -/
def demo_running : State demo_world :=
  (full_default (demo_engine ["x"]) (demo_state [some 1, none, none, none] "") 1 [] (-1)).2

/-- An engine whose every transcription produces the two segments `"ab"`, `"cd"`. -/
def demo_two : Engine demo_world := demo_engine ["ab", "cd"]

/-- A state with an engine in the first position and the undrained text `"old"`. -/
def demo_old : State demo_world := demo_state [some 1, none, none, none] "old"

/-- The events of two jobs on handle `1`, each followed by the end of its thread. -/
def demo_two_jobs : List Op :=
  [Op.full_default 1 [] (-1), Op.worker_finish, Op.full_default 1 [] (-1), Op.worker_finish]

/-- The statically initialised state of a machine with twelve hardware threads. -/
def demo_initial : State demo_world := demo_state [none, none, none, none] ""

/-- A sequence of events that calls every bound function. -/
def demo_ops : List Op :=
  [Op.init "m", Op.init "m", Op.free 1, Op.full_default 2 [5, 6] (-1), Op.get_text 0,
   Op.init "", Op.worker_finish, Op.get_text 9]

/-! ## Basic facts about joining -/

theorem worker_finish_g_contexts {W : Type} (E : Engine W) (s : State W) :
    (worker_finish E s).g_contexts = s.g_contexts := by
  unfold worker_finish
  cases h : s.g_worker with
  | none => rfl
  | some t => by_cases hf : t.finished = true <;> simp [hf, worker_body]

theorem worker_finish_MaxThreads {W : Type} (E : Engine W) (s : State W) :
    (worker_finish E s).MaxThreads = s.MaxThreads := by
  unfold worker_finish
  cases h : s.g_worker with
  | none => rfl
  | some t => by_cases hf : t.finished = true <;> simp [hf, worker_body]

theorem join_g_contexts {W : Type} (E : Engine W) (s : State W) :
    (join E s).g_contexts = s.g_contexts := by
  unfold join
  cases h : s.g_worker with
  | none => rfl
  | some t => simp [worker_finish_g_contexts]

theorem join_MaxThreads {W : Type} (E : Engine W) (s : State W) :
    (join E s).MaxThreads = s.MaxThreads := by
  unfold join
  cases h : s.g_worker with
  | none => rfl
  | some t => simp [worker_finish_MaxThreads]

theorem join_g_worker {W : Type} (E : Engine W) (s : State W) :
    (join E s).g_worker = none := by
  unfold join
  cases h : s.g_worker with
  | none => exact h
  | some t => rfl

theorem join_of_not_joinable {W : Type} (E : Engine W) (s : State W)
    (h : s.g_worker = none) : join E s = s := by
  unfold join
  rw [h]

theorem join_join {W : Type} (E : Engine W) (s : State W) :
    join E (join E s) = join E s :=
  join_of_not_joinable E (join E s) (join_g_worker E s)

/-! ## Basic facts about `size_t` -/

theorem size_t_dec_zero : size_t_dec 0 = SIZE_T_MOD - 1 := by
  decide

theorem size_t_dec_pos (index : Nat) (h1 : 1 ≤ index) (h2 : index < SIZE_T_MOD) :
    size_t_dec index = index - 1 := by
  unfold size_t_dec SIZE_T_MOD at *
  omega

theorem getD_eq_none_iff (g : List whisper_context_ptr) (i : Nat) (h : i < g.length) :
    g.getD i none = none ↔ g[i]? = some none := by
  simp [List.getD, List.getElem?_eq_getElem h]

/-! ## The loop of `init` -/

theorem init_loop_all_occupied {W : Type} (E : Engine W) (path_model : String) (s : State W)
    (rest : List whisper_context_ptr) (i : Nat) (h : ∀ p ∈ rest, p ≠ none) :
    init_loop E path_model s rest i = (0, s) := by
  induction rest generalizing i with
  | nil => rfl
  | cons p rest ih =>
    have hp : p ≠ none := h p (List.mem_cons_self p rest)
    have hrest : ∀ q ∈ rest, q ≠ none := fun q hq => h q (List.mem_cons_of_mem p hq)
    simp only [init_loop, hp, if_false]
    exact ih (i + 1) hrest

theorem init_loop_first_empty {W : Type} (E : Engine W) (path_model : String) (s : State W)
    (rest : List whisper_context_ptr) (k i : Nat) (hk : rest[k]? = some none)
    (hlt : ∀ j, j < k → rest[j]? ≠ some none) :
    init_loop E path_model s rest i =
      (if (E.whisper_init_from_file_with_params s.world path_model).1 ≠ none
        then (i + k + 1) % SIZE_T_MOD else 0,
       { s with
         g_contexts := s.g_contexts.set (i + k)
           (E.whisper_init_from_file_with_params s.world path_model).1
         world := (E.whisper_init_from_file_with_params s.world path_model).2 }) := by
  induction rest generalizing k i with
  | nil => simp at hk
  | cons p rest ih =>
    cases k with
    | zero =>
      have hp : p = none := by simpa using hk
      subst hp
      by_cases hb : (E.whisper_init_from_file_with_params s.world path_model).1 = none
      · simp [init_loop, hb]
      · simp [init_loop, hb]
    | succ k =>
      have hp : p ≠ none := by
        intro hp
        exact hlt 0 (Nat.succ_pos k) (by simp [hp])
      have hk2 : rest[k]? = some none := by simpa using hk
      have hlt2 : ∀ j, j < k → rest[j]? ≠ some none := by
        intro j hj
        have := hlt (j + 1) (Nat.succ_lt_succ hj)
        simpa using this
      simp only [init_loop, hp, if_false]
      rw [ih k (i + 1) hk2 hlt2]
      have e1 : i + 1 + k = i + (k + 1) := by omega
      rw [e1]

theorem set_eq_self_of_getElem {α : Type} (l : List α) (i : Nat) (a : α)
    (h : l[i]? = some a) : l.set i a = l := by
  induction l generalizing i with
  | nil => rfl
  | cons x l ih =>
    cases i with
    | zero =>
      have hx : x = a := by simpa using h
      simp [hx]
    | succ i =>
      have h2 : l[i]? = some a := by simpa using h
      simp [ih i h2]

/-! ## Status of `full_default` -/

theorem full_default_fst {W : Type} (E : Engine W) (s : State W) (index : Nat)
    (samples : List float32) (nthreads : Int) :
    (full_default E s index samples nthreads).1 =
      if size_t_dec index ≥ s.g_contexts.length then -1
      else if s.g_contexts.getD (size_t_dec index) none = none then -2 else 0 := by
  unfold full_default
  simp only [join_g_contexts]
  split
  · rfl
  · split <;> rfl

theorem size_t_dec_lt_four_iff (index : Nat) (h : index < SIZE_T_MOD) :
    size_t_dec index < 4 ↔ 1 ≤ index ∧ index ≤ 4 := by
  unfold size_t_dec SIZE_T_MOD at *
  omega

/-- Claim C1.  For every state whose pool has its four positions, every handle
(a `size_t`), every sample buffer and every thread count, `full_default` returns
`-1` exactly when the handle is `0` or greater than `4`, `-2` exactly when the
handle is in `1..4` and position `handle - 1` is null, and `0` exactly when the
handle is in `1..4` and position `handle - 1` holds an engine. -/
theorem C1_full_default_status {W : Type} (E : Engine W) (s : State W) (index : Nat)
    (samples : List float32) (nthreads : Int)
    (hlen : s.g_contexts.length = 4) (hsz : index < SIZE_T_MOD) :
    ((full_default E s index samples nthreads).1 = -1 ↔ (index = 0 ∨ 4 < index)) ∧
    ((full_default E s index samples nthreads).1 = -2 ↔
      (1 ≤ index ∧ index ≤ 4 ∧ s.g_contexts[index - 1]? = some none)) ∧
    ((full_default E s index samples nthreads).1 = 0 ↔
      (1 ≤ index ∧ index ≤ 4 ∧ ∃ a, s.g_contexts[index - 1]? = some (some a))) := by
  rw [full_default_fst, hlen]
  have hrange := size_t_dec_lt_four_iff index hsz
  by_cases hin : size_t_dec index < 4
  · have h14 := hrange.mp hin
    have hdec : size_t_dec index = index - 1 := size_t_dec_pos index h14.1 hsz
    have hnot : ¬ (size_t_dec index ≥ 4) := by omega
    have hlt : index - 1 < s.g_contexts.length := by omega
    have hget : s.g_contexts[index - 1]? = some (s.g_contexts.getD (index - 1) none) := by
      simp [List.getD, List.getElem?_eq_getElem hlt]
    simp only [hnot, if_false, hdec]
    cases hv : s.g_contexts.getD (index - 1) none with
    | none =>
      rw [hv] at hget
      simp [hget, h14.1, h14.2]
      omega
    | some a =>
      rw [hv] at hget
      simp [hget, h14.1, h14.2]
      omega
  · have hge : size_t_dec index ≥ 4 := by omega
    have hout : index = 0 ∨ 4 < index := by
      by_contra hc
      exact hin (hrange.mpr (by omega))
    simp only [hge, if_true]
    refine ⟨by simp [hout], ?_, ?_⟩
    · constructor
      · intro h; exact absurd h (by decide)
      · intro h; omega
    · constructor
      · intro h; exact absurd h (by decide)
      · intro h; omega

/-- Witness of claim C1: handle `2` on a pool whose second position is null. -/
theorem C1_full_default_status_witness :
    ((demo_state [some 1, none, some 3, none] "").g_contexts.length = 4 ∧ 2 < SIZE_T_MOD) ∧
    (((full_default (demo_engine ["a"]) (demo_state [some 1, none, some 3, none] "")
        2 [] (-1)).1 = -1 ↔ ((2 : Nat) = 0 ∨ 4 < 2)) ∧
     ((full_default (demo_engine ["a"]) (demo_state [some 1, none, some 3, none] "")
        2 [] (-1)).1 = -2 ↔
      (1 ≤ 2 ∧ 2 ≤ 4 ∧
        (demo_state [some 1, none, some 3, none] "").g_contexts[2 - 1]? = some none)) ∧
     ((full_default (demo_engine ["a"]) (demo_state [some 1, none, some 3, none] "")
        2 [] (-1)).1 = 0 ↔
      (1 ≤ 2 ∧ 2 ≤ 4 ∧
        ∃ a, (demo_state [some 1, none, some 3, none] "").g_contexts[2 - 1]? =
          some (some a)))) :=
  ⟨⟨by decide, by decide⟩,
   C1_full_default_status (demo_engine ["a"]) (demo_state [some 1, none, some 3, none] "")
     2 [] (-1) (by decide) (by decide)⟩

/-! ## `init` -/

theorem init_of_first_empty {W : Type} (E : Engine W) (s : State W) (path_model : String)
    (i : Nat) (hempty : s.g_contexts[i]? = some none)
    (hfirst : ∀ j, j < i → s.g_contexts[j]? ≠ some none) :
    init E s path_model =
      (if (E.whisper_init_from_file_with_params (join E s).world path_model).1 ≠ none
        then (i + 1) % SIZE_T_MOD else 0,
       { join E s with
         g_contexts := s.g_contexts.set i
           (E.whisper_init_from_file_with_params (join E s).world path_model).1
         world := (E.whisper_init_from_file_with_params (join E s).world path_model).2 }) := by
  unfold init
  have h := init_loop_first_empty E path_model (join E s) (join E s).g_contexts i 0
    (by rw [join_g_contexts]; exact hempty) (by rw [join_g_contexts]; exact hfirst)
  simp only [Nat.zero_add, join_g_contexts] at h
  simp only [join_g_contexts]
  exact h

/-- Claim C2.  If position `i` is the first null position of the pool and
construction (run after the join) returns the live instance `a`, then `init`
returns `i + 1`, position `i` holds `a` afterwards, and every other position is
as before. -/
theorem C2_init_success {W : Type} (E : Engine W) (s : State W) (path_model : String)
    (i a : Nat) (hlen : s.g_contexts.length = 4)
    (hempty : s.g_contexts[i]? = some none)
    (hfirst : ∀ j, j < i → s.g_contexts[j]? ≠ some none)
    (hbuilt : (E.whisper_init_from_file_with_params (join E s).world path_model).1 = some a) :
    (init E s path_model).1 = i + 1 ∧
    (init E s path_model).2.g_contexts[i]? = some (some a) ∧
    (∀ j, j ≠ i → (init E s path_model).2.g_contexts[j]? = s.g_contexts[j]?) ∧
    (init E s path_model).2.g_contexts.length = 4 := by
  have hi : i < s.g_contexts.length := by
    by_contra hc
    rw [List.getElem?_eq_none (by omega)] at hempty
    exact absurd hempty (by simp)
  rw [init_of_first_empty E s path_model i hempty hfirst, hbuilt]
  refine ⟨?_, ?_, ?_, ?_⟩
  · have hmod : (i + 1) % SIZE_T_MOD = i + 1 := by
      unfold SIZE_T_MOD
      omega
    simp [hmod]
  · simp [List.getElem?_set, hi]
  · intro j hj
    simp [List.getElem?_set, Ne.symm hj]
  · simp [hlen]

/-- Witness of claim C2: the first null position of the pool is position `1`. -/
theorem C2_init_success_witness :
    ((demo_state [some 7, none, some 3, none] "").g_contexts.length = 4 ∧
     (demo_state [some 7, none, some 3, none] "").g_contexts[1]? = some none ∧
     (∀ j, j < 1 → (demo_state [some 7, none, some 3, none] "").g_contexts[j]? ≠ some none) ∧
     ((demo_engine []).whisper_init_from_file_with_params
        (join (demo_engine []) (demo_state [some 7, none, some 3, none] "")).world "m").1
       = some 1) ∧
    ((init (demo_engine []) (demo_state [some 7, none, some 3, none] "") "m").1 = 1 + 1 ∧
     (init (demo_engine []) (demo_state [some 7, none, some 3, none] "") "m").2.g_contexts[1]?
       = some (some 1) ∧
     (∀ j, j ≠ 1 →
       (init (demo_engine []) (demo_state [some 7, none, some 3, none] "") "m").2.g_contexts[j]?
         = (demo_state [some 7, none, some 3, none] "").g_contexts[j]?) ∧
     (init (demo_engine []) (demo_state [some 7, none, some 3, none] "") "m").2.g_contexts.length
       = 4) :=
  ⟨⟨by decide, by decide, by decide, by decide⟩,
   C2_init_success (demo_engine []) (demo_state [some 7, none, some 3, none] "") "m" 1 1
     (by decide) (by decide) (by decide) (by decide)⟩

/-- Claim C3.  If each of the four positions of the pool holds an engine, `init`
returns `0` and its whole effect is the join: the pool is as before, the engine
state is the one the join left, and the result does not depend on the
construction function, which is never called. -/
theorem C3_init_full_pool {W : Type} (E : Engine W) (s : State W) (path_model : String)
    (hlen : s.g_contexts.length = 4)
    (hfull : ∀ j, j < 4 → ∃ a, s.g_contexts[j]? = some (some a)) :
    (init E s path_model).1 = 0 ∧
    (init E s path_model).2 = join E s ∧
    (init E s path_model).2.g_contexts = s.g_contexts ∧
    (∀ f : W → String → whisper_context_ptr × W,
      init { E with whisper_init_from_file_with_params := f } s path_model =
        init E s path_model) := by
  have hocc : ∀ p ∈ s.g_contexts, p ≠ none := by
    intro p hp
    obtain ⟨j, hj, hjp⟩ := List.getElem_of_mem hp
    obtain ⟨a, ha⟩ := hfull j (by omega)
    rw [List.getElem?_eq_getElem hj, hjp] at ha
    intro hnone
    rw [hnone] at ha
    exact absurd ha (by simp)
  have hinit : ∀ E2 : Engine W, init E2 s path_model = (0, join E2 s) := by
    intro E2
    unfold init
    exact init_loop_all_occupied E2 path_model (join E2 s) (join E2 s).g_contexts 0
      (by rw [join_g_contexts]; exact hocc)
  refine ⟨?_, ?_, ?_, ?_⟩
  · rw [hinit E]
  · rw [hinit E]
  · rw [hinit E]
    exact join_g_contexts E s
  · intro f
    rw [hinit E, hinit]
    rfl

/-- Witness of claim C3: a pool of four engines. -/
theorem C3_init_full_pool_witness :
    ((demo_state [some 1, some 2, some 3, some 4] "").g_contexts.length = 4 ∧
     (∀ j, j < 4 →
       ∃ a, (demo_state [some 1, some 2, some 3, some 4] "").g_contexts[j]? = some (some a))) ∧
    ((init (demo_engine []) (demo_state [some 1, some 2, some 3, some 4] "") "m").1 = 0 ∧
     (init (demo_engine []) (demo_state [some 1, some 2, some 3, some 4] "") "m").2 =
       join (demo_engine []) (demo_state [some 1, some 2, some 3, some 4] "") ∧
     (init (demo_engine []) (demo_state [some 1, some 2, some 3, some 4] "") "m").2.g_contexts =
       (demo_state [some 1, some 2, some 3, some 4] "").g_contexts ∧
     (∀ f : demo_world → String → whisper_context_ptr × demo_world,
       init { demo_engine [] with whisper_init_from_file_with_params := f }
           (demo_state [some 1, some 2, some 3, some 4] "") "m" =
         init (demo_engine []) (demo_state [some 1, some 2, some 3, some 4] "") "m")) :=
  ⟨⟨by decide, fun j hj => by interval_cases j <;> exact ⟨_, rfl⟩⟩,
   C3_init_full_pool (demo_engine []) (demo_state [some 1, some 2, some 3, some 4] "") "m"
     (by decide) (fun j hj => by interval_cases j <;> exact ⟨_, rfl⟩)⟩

/-- Claim C4.  If position `i` is the first null position of the pool and
construction (run after the join) returns the null pointer, then `init` returns
`0`, the pool is exactly as before and position `i` is still null, and the state
is the joined state with the engine state advanced by that one construction call:
no second construction is tried on a later null position. -/
theorem C4_init_construction_fails {W : Type} (E : Engine W) (s : State W)
    (path_model : String) (i : Nat) (hlen : s.g_contexts.length = 4)
    (hempty : s.g_contexts[i]? = some none)
    (hfirst : ∀ j, j < i → s.g_contexts[j]? ≠ some none)
    (hfail : (E.whisper_init_from_file_with_params (join E s).world path_model).1 = none) :
    (init E s path_model).1 = 0 ∧
    (init E s path_model).2.g_contexts = s.g_contexts ∧
    (init E s path_model).2.g_contexts[i]? = some none ∧
    (init E s path_model).2.g_contexts.length = 4 ∧
    (init E s path_model).2 =
      { join E s with
        world := (E.whisper_init_from_file_with_params (join E s).world path_model).2 } := by
  have hset : s.g_contexts.set i none = s.g_contexts :=
    set_eq_self_of_getElem s.g_contexts i none hempty
  have hinit := init_of_first_empty E s path_model i hempty hfirst
  rw [hfail, hset] at hinit
  have hj : (join E s).g_contexts = s.g_contexts := join_g_contexts E s
  rw [hinit]
  refine ⟨by simp, rfl, hempty, hlen, ?_⟩
  simp only
  rw [← hj]

/-- Witness of claim C4: the empty path makes the construction of `demo_engine`
fail; the engine state records exactly one construction call. -/
theorem C4_init_construction_fails_witness :
    ((demo_state [some 7, none, some 3, none] "").g_contexts.length = 4 ∧
     (demo_state [some 7, none, some 3, none] "").g_contexts[1]? = some none ∧
     (∀ j, j < 1 → (demo_state [some 7, none, some 3, none] "").g_contexts[j]? ≠ some none) ∧
     ((demo_engine []).whisper_init_from_file_with_params
        (join (demo_engine []) (demo_state [some 7, none, some 3, none] "")).world "").1
       = none) ∧
    ((init (demo_engine []) (demo_state [some 7, none, some 3, none] "") "").1 = 0 ∧
     (init (demo_engine []) (demo_state [some 7, none, some 3, none] "") "").2.g_contexts =
       (demo_state [some 7, none, some 3, none] "").g_contexts ∧
     (init (demo_engine []) (demo_state [some 7, none, some 3, none] "") "").2.g_contexts[1]?
       = some none ∧
     (init (demo_engine []) (demo_state [some 7, none, some 3, none] "") "").2.g_contexts.length
       = 4 ∧
     (init (demo_engine []) (demo_state [some 7, none, some 3, none] "") "").2 =
       { join (demo_engine []) (demo_state [some 7, none, some 3, none] "") with
         world := ((demo_engine []).whisper_init_from_file_with_params
           (join (demo_engine []) (demo_state [some 7, none, some 3, none] "")).world "").2 }) ∧
    (init (demo_engine []) (demo_state [some 7, none, some 3, none] "") "").2.world.constructed
      = 1 :=
  ⟨⟨by decide, by decide, by decide, by decide⟩,
   C4_init_construction_fails (demo_engine []) (demo_state [some 7, none, some 3, none] "") ""
     1 (by decide) (by decide) (by decide) (by decide),
   by decide⟩

/-! ## `get_text` -/

theorem run_get_text_only {W : Type} (E : Engine W) (ops : List Op)
    (hops : ∀ op ∈ ops, ∃ k, op = Op.get_text k) (s : State W)
    (hs : s.g_transcribed = "") :
    (run E s ops).g_transcribed = "" ∧ (run E s ops).g_worker = s.g_worker ∧
    (run E s ops).g_contexts = s.g_contexts ∧ (run E s ops).world = s.world ∧
    (run E s ops).MaxThreads = s.MaxThreads := by
  induction ops generalizing s with
  | nil => exact ⟨hs, rfl, rfl, rfl, rfl⟩
  | cons op ops ih =>
    obtain ⟨k, hk⟩ := hops op (List.mem_cons_self op ops)
    subst hk
    have hrest : ∀ op ∈ ops, ∃ k, op = Op.get_text k :=
      fun op hop => hops op (List.mem_cons_of_mem _ hop)
    exact ih hrest (step E s (Op.get_text k)) rfl

/-- Claim C6.  `get_text` returns exactly the content of the mailbox and leaves
the mailbox empty, touching nothing else; a second `get_text` right after it
returns the empty string, also after any number of further `get_text` calls in
between (no thread body ends in between). -/
theorem C6_get_text_drains {W : Type} (E : Engine W) (s : State W) (index index2 : Nat) :
    (get_text s index).1 = s.g_transcribed ∧
    (get_text s index).2.g_transcribed = "" ∧
    (get_text s index).2 = { s with g_transcribed := "" } ∧
    (get_text (get_text s index).2 index2).1 = "" ∧
    (∀ ops : List Op, (∀ op ∈ ops, ∃ k, op = Op.get_text k) →
      (get_text (run E (get_text s index).2 ops) index2).1 = "") := by
  refine ⟨rfl, rfl, rfl, rfl, ?_⟩
  intro ops hops
  exact (run_get_text_only E ops hops (get_text s index).2 rfl).1

/-! ## `free` -/

theorem free_g_contexts {W : Type} (E : Engine W) (s : State W) (index : Nat) :
    (free E s index).g_contexts = s.g_contexts.set (size_t_dec index) none := by
  unfold free
  simp only [join_g_contexts]
  split
  · rfl
  · rename_i hge
    rw [join_g_contexts]
    exact (List.set_eq_of_length_le (by omega)).symm

/-- Claim C8.  For every state whose pool has its four positions and every handle
`h` in `1..4`, after `free(h)` position `h - 1` is null and every other position is
as before, whatever position `h - 1` held; a second `free(h)` leaves the pool of
the first. -/
theorem C8_free_in_range {W : Type} (E : Engine W) (s : State W) (h : Nat)
    (hlen : s.g_contexts.length = 4) (h1 : 1 ≤ h) (h4 : h ≤ 4) :
    (free E s h).g_contexts[h - 1]? = some none ∧
    (∀ j, j ≠ h - 1 → (free E s h).g_contexts[j]? = s.g_contexts[j]?) ∧
    (free E s h).g_contexts.length = 4 ∧
    (free E (free E s h) h).g_contexts = (free E s h).g_contexts := by
  have hsz : h < SIZE_T_MOD := by
    unfold SIZE_T_MOD
    omega
  have hdec : size_t_dec h = h - 1 := size_t_dec_pos h h1 hsz
  have hlt : h - 1 < s.g_contexts.length := by omega
  rw [free_g_contexts, free_g_contexts, hdec]
  refine ⟨?_, ?_, ?_, ?_⟩
  · simp [List.getElem?_set, hlt]
  · intro j hj
    simp [List.getElem?_set, Ne.symm hj]
  · simp [hlen]
  · rw [free_g_contexts, hdec]
    simp

/-- Witness of claim C8: handle `3` on a pool whose third position holds an engine. -/
theorem C8_free_in_range_witness :
    ((demo_state [some 7, none, some 3, none] "").g_contexts.length = 4 ∧ 1 ≤ 3 ∧ 3 ≤ 4) ∧
    ((free (demo_engine []) (demo_state [some 7, none, some 3, none] "") 3).g_contexts[3 - 1]?
       = some none ∧
     (∀ j, j ≠ 3 - 1 →
       (free (demo_engine []) (demo_state [some 7, none, some 3, none] "") 3).g_contexts[j]?
         = (demo_state [some 7, none, some 3, none] "").g_contexts[j]?) ∧
     (free (demo_engine []) (demo_state [some 7, none, some 3, none] "") 3).g_contexts.length
       = 4 ∧
     (free (demo_engine [])
         (free (demo_engine []) (demo_state [some 7, none, some 3, none] "") 3) 3).g_contexts =
       (free (demo_engine []) (demo_state [some 7, none, some 3, none] "") 3).g_contexts) :=
  ⟨⟨by decide, by decide, by decide⟩,
   C8_free_in_range (demo_engine []) (demo_state [some 7, none, some 3, none] "") 3
     (by decide) (by decide) (by decide)⟩

theorem join_of_finished {W : Type} (E : Engine W) (s : State W) (t : worker_thread)
    (ht : s.g_worker = some t) (hf : t.finished = true) :
    join E s = { s with g_worker := none } := by
  unfold join worker_finish
  simp [ht, hf]

theorem join_of_running {W : Type} (E : Engine W) (s : State W) (t : worker_thread)
    (ht : s.g_worker = some t) (hf : t.finished = false) :
    join E s = { worker_body E s t with g_worker := none } := by
  unfold join worker_finish
  simp [ht, hf]

theorem free_of_out_of_range {W : Type} (E : Engine W) (s : State W) (index : Nat)
    (hout : ¬ size_t_dec index < s.g_contexts.length) : free E s index = join E s := by
  unfold free
  simp only [join_g_contexts, hout, if_false]

/-- Counterexample to claim C9 as stated: in `demo_running` the thread spawned by
a successful `full_default` has not finished; `free(0)` joins it, and the mailbox,
empty before the call, holds `"x"` after it. -/
theorem C9_free_out_of_range_counterexample :
    demo_running.g_contexts.length = 4 ∧ 0 < SIZE_T_MOD ∧
    demo_running.g_transcribed = "" ∧
    (free (demo_engine ["x"]) demo_running 0).g_transcribed = "x" ∧
    (free (demo_engine ["x"]) demo_running 0).g_transcribed ≠ demo_running.g_transcribed := by
  decide

/-- Claim C9, amended.  For every state whose pool has its four positions and
every handle that is `0` or greater than `4`, `free` does nothing but its initial
join: the pool is unchanged, the result does not depend on the destruction
function (no engine is destroyed), and the mailbox and the engine state are
unchanged when no thread is still running; when a thread is still running, `free`
returns after the body of that thread has ended, with its text appended. -/
theorem C9_free_out_of_range {W : Type} (E : Engine W) (s : State W) (index : Nat)
    (hlen : s.g_contexts.length = 4) (hsz : index < SIZE_T_MOD)
    (hout : index = 0 ∨ 4 < index) :
    free E s index = join E s ∧
    (free E s index).g_contexts = s.g_contexts ∧
    (∀ f : W → whisper_context_ptr → W,
      free { E with whisper_free := f } s index = free E s index) ∧
    ((∀ t, s.g_worker = some t → t.finished = true) →
      (free E s index).g_transcribed = s.g_transcribed ∧
      (free E s index).world = s.world) ∧
    (∀ t, s.g_worker = some t → t.finished = false →
      free E s index = { worker_body E s t with g_worker := none } ∧
      (free E s index).g_transcribed = s.g_transcribed ++
        worker_result E
          (E.whisper_full (E.whisper_reset_timings s.world (s.g_contexts.getD t.index none))
            (s.g_contexts.getD t.index none) t.params t.pcmf32)
          (s.g_contexts.getD t.index none)) := by
  have hnot : ¬ size_t_dec index < s.g_contexts.length := by
    rw [hlen, size_t_dec_lt_four_iff index hsz]
    omega
  have hfree : ∀ E2 : Engine W, free E2 s index = join E2 s :=
    fun E2 => free_of_out_of_range E2 s index hnot
  refine ⟨hfree E, ?_, ?_, ?_, ?_⟩
  · rw [hfree E]
    exact join_g_contexts E s
  · intro f
    rw [hfree E, hfree]
    rfl
  · intro hfin
    rw [hfree E]
    cases hw : s.g_worker with
    | none =>
      rw [join_of_not_joinable E s hw]
      exact ⟨rfl, rfl⟩
    | some t =>
      rw [join_of_finished E s t hw (hfin t hw)]
      exact ⟨rfl, rfl⟩
  · intro t ht hf
    rw [hfree E, join_of_running E s t ht hf]
    exact ⟨rfl, rfl⟩

/-- Witness of claim C9 (amended): handle `0` while a thread is still running. -/
theorem C9_free_out_of_range_witness :
    (demo_running.g_contexts.length = 4 ∧ 0 < SIZE_T_MOD ∧ ((0 : Nat) = 0 ∨ 4 < 0)) ∧
    (free (demo_engine ["x"]) demo_running 0 = join (demo_engine ["x"]) demo_running ∧
     (free (demo_engine ["x"]) demo_running 0).g_contexts = demo_running.g_contexts ∧
     (∀ f : demo_world → whisper_context_ptr → demo_world,
       free { demo_engine ["x"] with whisper_free := f } demo_running 0 =
         free (demo_engine ["x"]) demo_running 0) ∧
     ((∀ t, demo_running.g_worker = some t → t.finished = true) →
       (free (demo_engine ["x"]) demo_running 0).g_transcribed = demo_running.g_transcribed ∧
       (free (demo_engine ["x"]) demo_running 0).world = demo_running.world) ∧
     (∀ t, demo_running.g_worker = some t → t.finished = false →
       free (demo_engine ["x"]) demo_running 0 =
         { worker_body (demo_engine ["x"]) demo_running t with g_worker := none } ∧
       (free (demo_engine ["x"]) demo_running 0).g_transcribed =
         demo_running.g_transcribed ++
           worker_result (demo_engine ["x"])
             ((demo_engine ["x"]).whisper_full
               ((demo_engine ["x"]).whisper_reset_timings demo_running.world
                 (demo_running.g_contexts.getD t.index none))
               (demo_running.g_contexts.getD t.index none) t.params t.pcmf32)
             (demo_running.g_contexts.getD t.index none))) :=
  ⟨⟨by decide, by decide, by decide⟩,
   C9_free_out_of_range (demo_engine ["x"]) demo_running 0 (by decide) (by decide)
     (by decide)⟩

/-! ## `mpow2` -/

theorem wrap_int_of_small (x : Int) (h0 : 0 ≤ x) (h1 : x < 2 ^ 31) : wrap_int x = x := by
  unfold wrap_int
  omega

/-- The loop started at `p = 2 ^ j` with `2 ^ j ≤ 2 * n`: it stops at the first
power of two above `n`, after at most `31 - j` evaluations of its condition. -/
theorem mpow2_loop_spec (n : Int) (hn1 : 1 ≤ n) (hn2 : n < 2 ^ 30) :
    ∀ (d j fuel : Nat), (2 : Int) ^ j ≤ 2 * n → j + d = 31 → d ≤ fuel →
      ∃ k : Nat, mpow2_loop fuel ((2 : Int) ^ j) n = some ((2 : Int) ^ (k + 1)) ∧
        (2 : Int) ^ k ≤ n ∧ n < (2 : Int) ^ (k + 1) := by
  intro d
  induction d with
  | zero =>
    intro j fuel hj hd _
    have hj31 : j = 31 := by omega
    subst hj31
    norm_num at hj
    omega
  | succ d ih =>
    intro j fuel hj hd hfuel
    obtain ⟨f, hf⟩ : ∃ f, fuel = f + 1 := ⟨fuel - 1, by omega⟩
    subst hf
    have hpos : (0 : Int) < (2 : Int) ^ j := by positivity
    by_cases hle : (2 : Int) ^ j ≤ n
    · have hsucc : (2 : Int) ^ (j + 1) = (2 : Int) ^ j * 2 := pow_succ 2 j
      have hw : wrap_int ((2 : Int) ^ j * 2) = (2 : Int) ^ (j + 1) := by
        rw [hsucc]
        apply wrap_int_of_small <;> omega
      simp only [mpow2_loop, hle, if_true, hw]
      exact ih (j + 1) f (by omega) (by omega) (by omega)
    · cases j with
      | zero =>
        simp only [pow_zero] at hle
        omega
      | succ k =>
        have hsucc : (2 : Int) ^ (k + 1) = (2 : Int) ^ k * 2 := pow_succ 2 k
        refine ⟨k, ?_, by omega, by omega⟩
        simp only [mpow2_loop, hle, if_false]

theorem mpow2_spec (n : Int) (hn1 : 1 ≤ n) (hn2 : n < 2 ^ 30) (fuel : Nat)
    (hfuel : 31 ≤ fuel) :
    ∃ k : Nat, mpow2 fuel n = some ((2 : Int) ^ k) ∧
      (2 : Int) ^ k ≤ n ∧ n < (2 : Int) ^ (k + 1) := by
  obtain ⟨k, hk, hlo, hhi⟩ := mpow2_loop_spec n hn1 hn2 31 0 fuel (by omega) (by omega) hfuel
  refine ⟨k, ?_, hlo, hhi⟩
  unfold mpow2
  rw [pow_zero] at hk
  rw [hk, Option.map_some', pow_succ, Int.mul_tdiv_cancel _ (by decide)]

/-- The thread that a successful `full_default` leaves in `g_worker`. -/
theorem full_default_spawn {W : Type} (E : Engine W) (s : State W) (index a : Nat)
    (samples : List float32) (nthreads : Int) (hlen : s.g_contexts.length = 4)
    (h1 : 1 ≤ index) (h4 : index ≤ 4) (hocc : s.g_contexts[index - 1]? = some (some a)) :
    full_default E s index samples nthreads =
      (0, { join E s with
            g_transcribed := ""
            g_worker := some
              { index := index - 1
                params :=
                  { E.whisper_full_default_params
                      whisper_sampling_strategy.WHISPER_SAMPLING_GREEDY with
                    print_realtime := false
                    print_progress := false
                    print_timestamps := false
                    print_special := false
                    translate := false
                    language := "en"
                    n_threads := min (if nthreads = -1 then s.MaxThreads else nthreads)
                      (min 16 s.MaxThreads)
                    offset_ms := 0 }
                pcmf32 := samples
                finished := false } }) := by
  have hsz : index < SIZE_T_MOD := by
    unfold SIZE_T_MOD
    omega
  have hdec : size_t_dec index = index - 1 := size_t_dec_pos index h1 hsz
  have hlt : index - 1 < s.g_contexts.length := by omega
  have hnot : ¬ (index - 1 ≥ 4) := by omega
  have hget : s.g_contexts.getD (index - 1) none = some a := by
    simp [List.getD, hocc]
  unfold full_default
  simp only [join_g_contexts, join_MaxThreads, hdec, hlen, hnot, hget, if_false]
  rfl

/-- Claim C10.  For every hardware parallelism `hw` with `1 ≤ hw < 2 ^ 30` and
enough fuel for 31 evaluations of the loop condition, `mpow2(hw)` returns the
largest power of two `2 ^ k` not exceeding `hw`, static initialisation stores it
in `MaxThreads`, and in every state with that `MaxThreads` a `full_default` with
`nthreads = -1` on a handle in `1..4` whose position holds an engine returns `0`
and spawns a thread whose frozen `n_threads` is `min(16, 2 ^ k)`. -/
theorem C10_default_thread_count (hw fuel : Nat) (h1 : 1 ≤ hw) (h2 : hw < 2 ^ 30)
    (hfuel : 31 ≤ fuel) :
    ∃ k : Nat, 2 ^ k ≤ hw ∧ hw < 2 ^ (k + 1) ∧ (∀ m : Nat, 2 ^ m ≤ hw → 2 ^ m ≤ 2 ^ k) ∧
      mpow2 fuel (wrap_int (hw : Int)) = some ((2 : Int) ^ k) ∧
      (∀ (W : Type) (w : W), ∃ s0 : State W,
        static_init fuel hw w = some s0 ∧ s0.MaxThreads = (2 : Int) ^ k) ∧
      (∀ (W : Type) (E : Engine W) (s : State W) (index a : Nat) (samples : List float32),
        s.MaxThreads = (2 : Int) ^ k → s.g_contexts.length = 4 → 1 ≤ index → index ≤ 4 →
        s.g_contexts[index - 1]? = some (some a) →
        (full_default E s index samples (-1)).1 = 0 ∧
        ∃ t, (full_default E s index samples (-1)).2.g_worker = some t ∧
          t.finished = false ∧
          t.params.n_threads = min 16 ((2 : Int) ^ k)) := by
  have hwrap : wrap_int (hw : Int) = (hw : Int) := by
    apply wrap_int_of_small <;> omega
  have hn1 : (1 : Int) ≤ (hw : Int) := by omega
  have hn2 : (hw : Int) < 2 ^ 30 := by omega
  obtain ⟨k, hk, hlo, hhi⟩ := mpow2_spec (hw : Int) hn1 hn2 fuel hfuel
  have hlo2 : 2 ^ k ≤ hw := by exact_mod_cast hlo
  have hhi2 : hw < 2 ^ (k + 1) := by exact_mod_cast hhi
  refine ⟨k, hlo2, hhi2, ?_, ?_, ?_, ?_⟩
  · intro m hm
    have hlt : 2 ^ m < 2 ^ (k + 1) := lt_of_le_of_lt hm hhi2
    have hmk : m < k + 1 := (Nat.pow_lt_pow_iff_right (by decide)).mp hlt
    exact Nat.pow_le_pow_right (by decide) (by omega)
  · rw [hwrap]
    exact hk
  · intro W w
    unfold static_init
    rw [hwrap, hk]
    exact ⟨_, rfl, rfl⟩
  · intro W E s index a samples hmax hlen hi1 hi4 hocc
    rw [full_default_spawn E s index a samples (-1) hlen hi1 hi4 hocc]
    refine ⟨rfl, _, rfl, rfl, ?_⟩
    simp only [if_true, hmax]
    exact min_eq_right (min_le_right 16 ((2 : Int) ^ k))

/-- Witness of claim C10: twelve hardware threads give `MaxThreads = 8`. -/
theorem C10_default_thread_count_witness :
    (1 ≤ 12 ∧ 12 < 2 ^ 30 ∧ 31 ≤ 31) ∧
    (∃ k : Nat, 2 ^ k ≤ 12 ∧ 12 < 2 ^ (k + 1) ∧ (∀ m : Nat, 2 ^ m ≤ 12 → 2 ^ m ≤ 2 ^ k) ∧
      mpow2 31 (wrap_int ((12 : Nat) : Int)) = some ((2 : Int) ^ k) ∧
      (∀ (W : Type) (w : W), ∃ s0 : State W,
        static_init 31 12 w = some s0 ∧ s0.MaxThreads = (2 : Int) ^ k) ∧
      (∀ (W : Type) (E : Engine W) (s : State W) (index a : Nat) (samples : List float32),
        s.MaxThreads = (2 : Int) ^ k → s.g_contexts.length = 4 → 1 ≤ index → index ≤ 4 →
        s.g_contexts[index - 1]? = some (some a) →
        (full_default E s index samples (-1)).1 = 0 ∧
        ∃ t, (full_default E s index samples (-1)).2.g_worker = some t ∧
          t.finished = false ∧
          t.params.n_threads = min 16 ((2 : Int) ^ k))) ∧
    mpow2 31 (wrap_int ((12 : Nat) : Int)) = some 8 :=
  ⟨⟨by decide, by decide, by decide⟩,
   C10_default_thread_count 12 31 (by decide) (by decide) (by decide),
   by decide⟩

/-! ## The mailbox and the thread across the bound functions -/

theorem init_loop_frame {W : Type} (E : Engine W) (path_model : String) (s : State W)
    (rest : List whisper_context_ptr) (i : Nat) :
    (init_loop E path_model s rest i).2.g_transcribed = s.g_transcribed ∧
    (init_loop E path_model s rest i).2.g_worker = s.g_worker ∧
    (init_loop E path_model s rest i).2.MaxThreads = s.MaxThreads := by
  induction rest generalizing i with
  | nil => exact ⟨rfl, rfl, rfl⟩
  | cons p rest ih =>
    by_cases hp : p = none
    · by_cases hb : (E.whisper_init_from_file_with_params s.world path_model).1 = none
      · simp [init_loop, hp, hb]
      · simp [init_loop, hp, hb]
    · simp only [init_loop, hp, if_false]
      exact ih (i + 1)

theorem init_g_transcribed {W : Type} (E : Engine W) (s : State W) (path_model : String) :
    (init E s path_model).2.g_transcribed = (join E s).g_transcribed :=
  (init_loop_frame E path_model (join E s) (join E s).g_contexts 0).1

theorem init_g_worker {W : Type} (E : Engine W) (s : State W) (path_model : String) :
    (init E s path_model).2.g_worker = none := by
  have h := (init_loop_frame E path_model (join E s) (join E s).g_contexts 0).2.1
  rw [join_g_worker] at h
  exact h

theorem free_g_transcribed {W : Type} (E : Engine W) (s : State W) (index : Nat) :
    (free E s index).g_transcribed = (join E s).g_transcribed := by
  unfold free
  simp only
  split <;> rfl

theorem free_g_worker {W : Type} (E : Engine W) (s : State W) (index : Nat) :
    (free E s index).g_worker = none := by
  unfold free
  simp only
  split
  · exact join_g_worker E s
  · exact join_g_worker E s

/-- The text in the mailbox once a running thread has ended: what was there,
followed by the local `result` of the thread. -/
theorem join_g_transcribed_of_running {W : Type} (E : Engine W) (s : State W)
    (t : worker_thread) (ht : s.g_worker = some t) (hf : t.finished = false) :
    (join E s).g_transcribed = s.g_transcribed ++
      worker_result E
        (E.whisper_full (E.whisper_reset_timings s.world (s.g_contexts.getD t.index none))
          (s.g_contexts.getD t.index none) t.params t.pcmf32)
        (s.g_contexts.getD t.index none) := by
  rw [join_of_running E s t ht hf]
  rfl

theorem worker_finish_g_transcribed_of_running {W : Type} (E : Engine W) (s : State W)
    (t : worker_thread) (ht : s.g_worker = some t) (hf : t.finished = false) :
    (worker_finish E s).g_transcribed = s.g_transcribed ++
      worker_result E
        (E.whisper_full (E.whisper_reset_timings s.world (s.g_contexts.getD t.index none))
          (s.g_contexts.getD t.index none) t.params t.pcmf32)
        (s.g_contexts.getD t.index none) ∧
    (worker_finish E s).g_worker = some { t with finished := true } := by
  unfold worker_finish
  simp [ht, hf, worker_body]

/-- Joining when no thread is still running leaves the mailbox as it is. -/
theorem join_g_transcribed_of_idle {W : Type} (E : Engine W) (s : State W)
    (hidle : ∀ t, s.g_worker = some t → t.finished = true) :
    (join E s).g_transcribed = s.g_transcribed := by
  cases hw : s.g_worker with
  | none => rw [join_of_not_joinable E s hw]
  | some t => rw [join_of_finished E s t hw (hidle t hw)]

theorem worker_finish_of_idle {W : Type} (E : Engine W) (s : State W)
    (hidle : ∀ t, s.g_worker = some t → t.finished = true) :
    worker_finish E s = s := by
  unfold worker_finish
  cases hw : s.g_worker with
  | none => rfl
  | some t => simp [hidle t hw]

/-- The segment loop computes the concatenation of the segment texts in order. -/
theorem worker_result_eq_join {W : Type} (E : Engine W) (w : W) (ctx : whisper_context_ptr) :
    worker_result E w ctx =
      String.join ((List.range (E.whisper_full_n_segments w ctx).toNat).map
        (fun i => E.whisper_full_get_segment_text w ctx (i : Int))) := by
  simp [worker_result, String.join, List.foldl_map]

/-! ## The text of a job -/

theorem run_append {W : Type} (E : Engine W) (s : State W) (ops1 ops2 : List Op) :
    run E s (ops1 ++ ops2) = run E (run E s ops1) ops2 := by
  unfold run
  exact List.foldl_append (step E) s ops1 ops2

theorem run_cons {W : Type} (E : Engine W) (s : State W) (op : Op) (ops : List Op) :
    run E s (op :: ops) = run E (step E s op) ops := rfl

theorem run_is_get_text {W : Type} (E : Engine W) (ops : List Op)
    (hops : ∀ op ∈ ops, Op.is_get_text op = true) (s : State W)
    (hs : s.g_transcribed = "") :
    (run E s ops).g_transcribed = "" ∧ (run E s ops).g_worker = s.g_worker ∧
    (run E s ops).g_contexts = s.g_contexts ∧ (run E s ops).world = s.world := by
  have h := run_get_text_only E ops (fun op hop => by
    have hg := hops op hop
    cases op <;> simp [Op.is_get_text] at hg
    exact ⟨_, rfl⟩) s hs
  exact ⟨h.1, h.2.1, h.2.2.1, h.2.2.2.1⟩

/-- A completing event in a state whose thread is still running: the mailbox gets
the text of the thread appended, and no thread is running afterwards. -/
theorem step_completes_of_running {W : Type} (E : Engine W) (s : State W)
    (t : worker_thread) (ht : s.g_worker = some t) (hf : t.finished = false)
    (op : Op) (hop : Op.completes op = true) :
    (step E s op).g_transcribed = s.g_transcribed ++
      worker_result E
        (E.whisper_full (E.whisper_reset_timings s.world (s.g_contexts.getD t.index none))
          (s.g_contexts.getD t.index none) t.params t.pcmf32)
        (s.g_contexts.getD t.index none) ∧
    (∀ u, (step E s op).g_worker = some u → u.finished = true) := by
  cases op with
  | init path_model =>
    refine ⟨?_, ?_⟩
    · simp only [step]
      rw [init_g_transcribed, join_g_transcribed_of_running E s t ht hf]
    · intro u hu
      simp only [step] at hu
      rw [init_g_worker] at hu
      exact absurd hu (by simp)
  | free index =>
    refine ⟨?_, ?_⟩
    · simp only [step]
      rw [free_g_transcribed, join_g_transcribed_of_running E s t ht hf]
    · intro u hu
      simp only [step] at hu
      rw [free_g_worker] at hu
      exact absurd hu (by simp)
  | worker_finish =>
    have h := worker_finish_g_transcribed_of_running E s t ht hf
    refine ⟨h.1, ?_⟩
    intro u hu
    simp only [step] at hu
    rw [h.2] at hu
    have hu2 := Option.some.inj hu
    rw [← hu2]
  | full_default index samples nthreads => simp [Op.completes] at hop
  | get_text index => simp [Op.completes] at hop

/-- A completing event in a state with no running thread leaves the mailbox as it
is, and no thread is running afterwards. -/
theorem step_completes_of_idle {W : Type} (E : Engine W) (s : State W)
    (hidle : ∀ t, s.g_worker = some t → t.finished = true)
    (op : Op) (hop : Op.completes op = true) :
    (step E s op).g_transcribed = s.g_transcribed ∧
    (∀ u, (step E s op).g_worker = some u → u.finished = true) := by
  cases op with
  | init path_model =>
    refine ⟨?_, ?_⟩
    · simp only [step]
      rw [init_g_transcribed, join_g_transcribed_of_idle E s hidle]
    · intro u hu
      simp only [step] at hu
      rw [init_g_worker] at hu
      exact absurd hu (by simp)
  | free index =>
    refine ⟨?_, ?_⟩
    · simp only [step]
      rw [free_g_transcribed, join_g_transcribed_of_idle E s hidle]
    · intro u hu
      simp only [step] at hu
      rw [free_g_worker] at hu
      exact absurd hu (by simp)
  | worker_finish =>
    simp only [step]
    rw [worker_finish_of_idle E s hidle]
    exact ⟨rfl, hidle⟩
  | full_default index samples nthreads => simp [Op.completes] at hop
  | get_text index => simp [Op.completes] at hop

theorem run_completes_of_idle {W : Type} (E : Engine W) (ops : List Op)
    (hops : ∀ op ∈ ops, Op.completes op = true) (s : State W)
    (hidle : ∀ t, s.g_worker = some t → t.finished = true) :
    (run E s ops).g_transcribed = s.g_transcribed ∧
    (∀ u, (run E s ops).g_worker = some u → u.finished = true) := by
  induction ops generalizing s with
  | nil => exact ⟨rfl, hidle⟩
  | cons op ops ih =>
    have h1 := step_completes_of_idle E s hidle op (hops op (List.mem_cons_self op ops))
    have h2 := ih (fun o ho => hops o (List.mem_cons_of_mem _ ho)) (step E s op) h1.2
    rw [run_cons]
    exact ⟨h2.1.trans h1.1, h2.2⟩

/-- From a state with a running thread and an empty mailbox: after `get_text`
calls, one completing event and further completing events, the mailbox holds the
local `result` of the thread. -/
theorem text_after_completion {W : Type} (E : Engine W) (s : State W) (t : worker_thread)
    (ht : s.g_worker = some t) (hf : t.finished = false) (hs : s.g_transcribed = "")
    (pre : List Op) (c : Op) (post : List Op) (k : Nat)
    (hpre : ∀ op ∈ pre, Op.is_get_text op = true) (hc : Op.completes c = true)
    (hpost : ∀ op ∈ post, Op.completes op = true) :
    (get_text (run E s (pre ++ c :: post)) k).1 =
      worker_result E
        (E.whisper_full (E.whisper_reset_timings s.world (s.g_contexts.getD t.index none))
          (s.g_contexts.getD t.index none) t.params t.pcmf32)
        (s.g_contexts.getD t.index none) := by
  obtain ⟨hA1, hA2, hA3, hA4⟩ := run_is_get_text E pre hpre s hs
  have hB := step_completes_of_running E (run E s pre) t (hA2.trans ht) hf c hc
  have hC := run_completes_of_idle E post hpost (step E (run E s pre) c) hB.2
  show (run E s (pre ++ c :: post)).g_transcribed = _
  rw [run_append, run_cons, hC.1, hB.1, hA1, hA3, hA4, String.empty_append]

/-- Claim C5.  In every state whose pool has its four positions, for a handle `h`
in `1..4` whose position holds the engine `a`: `full_default` returns `0` and
leaves a running thread `t`; after any `get_text` calls made while it runs, one
event that lets it end (the thread reaching its end, or a joining `free` or
`init`) and any further such events, the next `get_text` returns the
concatenation, in the order `0 .. n_segments - 1`, of the segment texts the engine
holds after the `whisper_full` of that run; it is the empty string when the
engine reports no segment.  The mailbox of the state before the call plays no
part. -/
theorem C5_text_after_job {W : Type} (E : Engine W) (s : State W) (h a : Nat)
    (samples : List float32) (nthreads : Int) (hlen : s.g_contexts.length = 4)
    (h1 : 1 ≤ h) (h4 : h ≤ 4) (hocc : s.g_contexts[h - 1]? = some (some a)) :
    (full_default E s h samples nthreads).1 = 0 ∧
    ∃ t, (full_default E s h samples nthreads).2.g_worker = some t ∧
      t.finished = false ∧ t.pcmf32 = samples ∧
      ∀ (pre : List Op) (c : Op) (post : List Op) (k : Nat),
        (∀ op ∈ pre, Op.is_get_text op = true) → Op.completes c = true →
        (∀ op ∈ post, Op.completes op = true) →
        (get_text (run E (full_default E s h samples nthreads).2 (pre ++ c :: post)) k).1 =
          String.join
            ((List.range (E.whisper_full_n_segments
                (E.whisper_full (E.whisper_reset_timings (join E s).world (some a)) (some a)
                  t.params t.pcmf32) (some a)).toNat).map
              (fun i => E.whisper_full_get_segment_text
                (E.whisper_full (E.whisper_reset_timings (join E s).world (some a)) (some a)
                  t.params t.pcmf32) (some a) (i : Int))) ∧
        (E.whisper_full_n_segments
            (E.whisper_full (E.whisper_reset_timings (join E s).world (some a)) (some a)
              t.params t.pcmf32) (some a) ≤ 0 →
          (get_text (run E (full_default E s h samples nthreads).2 (pre ++ c :: post)) k).1
            = "") := by
  have hspawn := full_default_spawn E s h a samples nthreads hlen h1 h4 hocc
  have hget : s.g_contexts.getD (h - 1) none = some a := by
    simp [List.getD, hocc]
  have hstatus : (full_default E s h samples nthreads).1 = 0 := by rw [hspawn]
  have hmail : (full_default E s h samples nthreads).2.g_transcribed = "" := by rw [hspawn]
  have hworld : (full_default E s h samples nthreads).2.world = (join E s).world := by
    rw [hspawn]
  have hpool : (full_default E s h samples nthreads).2.g_contexts = s.g_contexts := by
    rw [hspawn]
    exact join_g_contexts E s
  obtain ⟨t, ht, hfin, hpcm, hidx⟩ :
      ∃ t, (full_default E s h samples nthreads).2.g_worker = some t ∧
        t.finished = false ∧ t.pcmf32 = samples ∧ t.index = h - 1 := by
    rw [hspawn]
    exact ⟨_, rfl, rfl, rfl, rfl⟩
  refine ⟨hstatus, t, ht, hfin, hpcm, ?_⟩
  intro pre c post k hpre hc hpost
  have htext := text_after_completion E (full_default E s h samples nthreads).2 t ht hfin
    hmail pre c post k hpre hc hpost
  rw [hworld, hpool, hidx, hget, worker_result_eq_join] at htext
  refine ⟨htext, ?_⟩
  intro hzero
  rw [htext, Int.toNat_of_nonpos hzero]
  rfl

/-- Witness of claim C5: handle `1` of `demo_old`; after a `get_text` while the
thread runs and a joining `free(0)`, the next `get_text` returns `"abcd"`. -/
theorem C5_text_after_job_witness :
    (demo_old.g_contexts.length = 4 ∧ 1 ≤ 1 ∧ 1 ≤ 4 ∧
      demo_old.g_contexts[1 - 1]? = some (some 1)) ∧
    ((full_default demo_two demo_old 1 [] (-1)).1 = 0 ∧
     ∃ t, (full_default demo_two demo_old 1 [] (-1)).2.g_worker = some t ∧
      t.finished = false ∧ t.pcmf32 = [] ∧
      ∀ (pre : List Op) (c : Op) (post : List Op) (k : Nat),
        (∀ op ∈ pre, Op.is_get_text op = true) → Op.completes c = true →
        (∀ op ∈ post, Op.completes op = true) →
        (get_text (run demo_two (full_default demo_two demo_old 1 [] (-1)).2
            (pre ++ c :: post)) k).1 =
          String.join
            ((List.range (demo_two.whisper_full_n_segments
                (demo_two.whisper_full
                  (demo_two.whisper_reset_timings (join demo_two demo_old).world (some 1))
                  (some 1) t.params t.pcmf32) (some 1)).toNat).map
              (fun i => demo_two.whisper_full_get_segment_text
                (demo_two.whisper_full
                  (demo_two.whisper_reset_timings (join demo_two demo_old).world (some 1))
                  (some 1) t.params t.pcmf32) (some 1) (i : Int))) ∧
        (demo_two.whisper_full_n_segments
            (demo_two.whisper_full
              (demo_two.whisper_reset_timings (join demo_two demo_old).world (some 1))
              (some 1) t.params t.pcmf32) (some 1) ≤ 0 →
          (get_text (run demo_two (full_default demo_two demo_old 1 [] (-1)).2
              (pre ++ c :: post)) k).1 = "")) ∧
    (get_text (run demo_two (full_default demo_two demo_old 1 [] (-1)).2
        ([Op.get_text 1] ++ Op.free 0 :: [])) 1).1 = "abcd" :=
  ⟨⟨by decide, by decide, by decide, by decide⟩,
   C5_text_after_job demo_two demo_old 1 1 [] (-1) (by decide) (by decide) (by decide)
     (by decide),
   by decide⟩

/-! ## What the mailbox keeps -/

theorem pending_text_of_idle {W : Type} (E : Engine W) (s : State W)
    (hidle : ∀ t, s.g_worker = some t → t.finished = true) : pending_text E s = "" := by
  unfold pending_text
  cases hw : s.g_worker with
  | none => rfl
  | some t => simp [hidle t hw]

theorem pending_text_of_running {W : Type} (E : Engine W) (s : State W) (t : worker_thread)
    (ht : s.g_worker = some t) (hf : t.finished = false) :
    pending_text E s =
      worker_result E
        (E.whisper_full (E.whisper_reset_timings s.world (s.g_contexts.getD t.index none))
          (s.g_contexts.getD t.index none) t.params t.pcmf32)
        (s.g_contexts.getD t.index none) := by
  unfold pending_text
  simp [ht, hf]

theorem idle_or_running {W : Type} (s : State W) :
    (∀ t, s.g_worker = some t → t.finished = true) ∨
    (∃ t, s.g_worker = some t ∧ t.finished = false) := by
  cases hw : s.g_worker with
  | none => exact Or.inl (fun t ht => absurd ht (by simp))
  | some t =>
    cases hf : t.finished with
    | true =>
      refine Or.inl (fun u hu => ?_)
      rw [← Option.some.inj hu]
      exact hf
    | false => exact Or.inr ⟨t, rfl, hf⟩

theorem join_g_transcribed {W : Type} (E : Engine W) (s : State W) :
    (join E s).g_transcribed = s.g_transcribed ++ pending_text E s := by
  rcases idle_or_running s with hidle | ⟨t, ht, hf⟩
  · rw [join_g_transcribed_of_idle E s hidle, pending_text_of_idle E s hidle,
      String.append_empty]
  · rw [join_g_transcribed_of_running E s t ht hf, pending_text_of_running E s t ht hf]

theorem worker_finish_g_transcribed {W : Type} (E : Engine W) (s : State W) :
    (worker_finish E s).g_transcribed = s.g_transcribed ++ pending_text E s := by
  rcases idle_or_running s with hidle | ⟨t, ht, hf⟩
  · rw [worker_finish_of_idle E s hidle, pending_text_of_idle E s hidle,
      String.append_empty]
  · rw [(worker_finish_g_transcribed_of_running E s t ht hf).1,
      pending_text_of_running E s t ht hf]

/-- A `full_default` that does not return `0` only joins; one that returns `0`
joins, empties the mailbox and leaves a running thread. -/
theorem full_default_cases {W : Type} (E : Engine W) (s : State W) (index : Nat)
    (samples : List float32) (nthreads : Int) :
    ((full_default E s index samples nthreads).1 ≠ 0 →
      (full_default E s index samples nthreads).2 = join E s) ∧
    ((full_default E s index samples nthreads).1 = 0 →
      (full_default E s index samples nthreads).2.g_transcribed = "" ∧
      (full_default E s index samples nthreads).2.g_contexts = s.g_contexts ∧
      (full_default E s index samples nthreads).2.world = (join E s).world ∧
      ∃ t, (full_default E s index samples nthreads).2.g_worker = some t ∧
        t.finished = false ∧ t.pcmf32 = samples ∧ t.index = size_t_dec index) := by
  unfold full_default
  simp only
  split
  · exact ⟨fun _ => rfl, fun h => absurd (show (-1 : Int) = 0 from h) (by decide)⟩
  · split
    · exact ⟨fun _ => rfl, fun h => absurd (show (-2 : Int) = 0 from h) (by decide)⟩
    · exact ⟨fun h => absurd rfl h,
        fun _ => ⟨rfl, join_g_contexts E s, rfl, _, rfl, rfl, rfl, rfl⟩⟩

/-- An event that keeps the text: the mailbox gets the text of the thread that
ended meanwhile appended, and no thread is running afterwards. -/
theorem step_keeps_text {W : Type} (E : Engine W) (s : State W) (op : Op)
    (hop : keeps_text E s op = true) :
    (step E s op).g_transcribed = s.g_transcribed ++ pending_text E s ∧
    (∀ u, (step E s op).g_worker = some u → u.finished = true) := by
  cases op with
  | init path_model =>
    refine ⟨?_, ?_⟩
    · simp only [step]
      rw [init_g_transcribed, join_g_transcribed]
    · intro u hu
      simp only [step] at hu
      rw [init_g_worker] at hu
      exact absurd hu (by simp)
  | free index =>
    refine ⟨?_, ?_⟩
    · simp only [step]
      rw [free_g_transcribed, join_g_transcribed]
    · intro u hu
      simp only [step] at hu
      rw [free_g_worker] at hu
      exact absurd hu (by simp)
  | worker_finish =>
    refine ⟨worker_finish_g_transcribed E s, ?_⟩
    rcases idle_or_running s with hidle | ⟨t, ht, hf⟩
    · simp only [step]
      rw [worker_finish_of_idle E s hidle]
      exact hidle
    · intro u hu
      simp only [step] at hu
      rw [(worker_finish_g_transcribed_of_running E s t ht hf).2] at hu
      rw [← Option.some.inj hu]
  | full_default index samples nthreads =>
    have hne : (full_default E s index samples nthreads).1 ≠ 0 := by
      simpa [keeps_text] using hop
    have hjoin := (full_default_cases E s index samples nthreads).1 hne
    refine ⟨?_, ?_⟩
    · simp only [step]
      rw [hjoin, join_g_transcribed]
    · intro u hu
      simp only [step] at hu
      rw [hjoin, join_g_worker] at hu
      exact absurd hu (by simp)
  | get_text index => simp [keeps_text] at hop

theorem run_keeps_text_g_transcribed {W : Type} (E : Engine W) (ops : List Op)
    (s : State W) (hne : ops ≠ []) (hops : run_keeps_text E s ops = true) :
    (run E s ops).g_transcribed = s.g_transcribed ++ pending_text E s ∧
    (∀ u, (run E s ops).g_worker = some u → u.finished = true) := by
  induction ops generalizing s with
  | nil => exact absurd rfl hne
  | cons op ops ih =>
    simp only [run_keeps_text, Bool.and_eq_true] at hops
    have h1 := step_keeps_text E s op hops.1
    rw [run_cons]
    cases ops with
    | nil => exact h1
    | cons op2 ops2 =>
      have h2 := ih (step E s op) (by simp) hops.2
      rw [h2.1, h1.1, pending_text_of_idle E (step E s op) h1.2, String.append_empty]
      exact ⟨rfl, h2.2⟩

/-- Counterexample to claim C7 as stated: on handle `1` of a pool with one
engine, a first job ends and appends `"abcd"`; a second `full_default` returns
`0` and empties the mailbox before spawning; after its thread has ended too, the
next `get_text` returns `"abcd"`, not the accumulated `"abcdabcd"`. -/
theorem C7_mailbox_accumulates_counterexample :
    (run demo_two (demo_state [some 1, none, none, none] "")
      [Op.full_default 1 [] (-1), Op.worker_finish]).g_transcribed = "abcd" ∧
    (full_default demo_two
      (run demo_two (demo_state [some 1, none, none, none] "")
        [Op.full_default 1 [] (-1), Op.worker_finish]) 1 [] (-1)).1 = 0 ∧
    (full_default demo_two
      (run demo_two (demo_state [some 1, none, none, none] "")
        [Op.full_default 1 [] (-1), Op.worker_finish]) 1 [] (-1)).2.g_transcribed = "" ∧
    (get_text (run demo_two (demo_state [some 1, none, none, none] "") demo_two_jobs) 1).1
      = "abcd" ∧
    (get_text (run demo_two (demo_state [some 1, none, none, none] "") demo_two_jobs) 1).1
      ≠ "abcd" ++ "abcd" := by
  decide

/-- Claim C7, amended.  Text in the mailbox is kept until the next `get_text` or
the next successful `full_default`.  In every state, `init`, `free`, the end of
the thread, a `full_default` that does not return `0`, and any sequence of such
events leave in the mailbox what was there, followed by the text of the thread
that ended meanwhile.  A `full_default` that returns `0` empties the
mailbox before it spawns its thread, so once that thread has ended the next
`get_text` returns the text of that thread alone. -/
theorem C7_mailbox_kept_until_read_or_submit {W : Type} (E : Engine W) (s : State W) :
    (∀ path_model : String,
      (init E s path_model).2.g_transcribed = s.g_transcribed ++ pending_text E s) ∧
    (∀ index : Nat,
      (free E s index).g_transcribed = s.g_transcribed ++ pending_text E s) ∧
    (worker_finish E s).g_transcribed = s.g_transcribed ++ pending_text E s ∧
    (∀ (index : Nat) (samples : List float32) (nthreads : Int),
      (full_default E s index samples nthreads).1 ≠ 0 →
      (full_default E s index samples nthreads).2.g_transcribed =
        s.g_transcribed ++ pending_text E s) ∧
    (∀ (ops : List Op) (k : Nat), ops ≠ [] → run_keeps_text E s ops = true →
      (get_text (run E s ops) k).1 = s.g_transcribed ++ pending_text E s) ∧
    (∀ (index : Nat) (samples : List float32) (nthreads : Int),
      (full_default E s index samples nthreads).1 = 0 →
      (full_default E s index samples nthreads).2.g_transcribed = "" ∧
      ∀ (pre : List Op) (c : Op) (post : List Op) (k : Nat),
        (∀ op ∈ pre, Op.is_get_text op = true) → Op.completes c = true →
        (∀ op ∈ post, Op.completes op = true) →
        (get_text (run E (full_default E s index samples nthreads).2 (pre ++ c :: post)) k).1
          = pending_text E (full_default E s index samples nthreads).2) := by
  refine ⟨?_, ?_, ?_, ?_, ?_, ?_⟩
  · intro path_model
    rw [init_g_transcribed, join_g_transcribed]
  · intro index
    rw [free_g_transcribed, join_g_transcribed]
  · exact worker_finish_g_transcribed E s
  · intro index samples nthreads hne
    rw [(full_default_cases E s index samples nthreads).1 hne, join_g_transcribed]
  · intro ops k hne hops
    exact (run_keeps_text_g_transcribed E ops s hne hops).1
  · intro index samples nthreads hzero
    obtain ⟨hmail, _, _, t, ht, hf, _, _⟩ :=
      (full_default_cases E s index samples nthreads).2 hzero
    refine ⟨hmail, ?_⟩
    intro pre c post k hpre hc hpost
    rw [text_after_completion E _ t ht hf hmail pre c post k hpre hc hpost,
      pending_text_of_running E _ t ht hf]

/-! ## The handle of `get_text` -/

/-- Claim C16.  `get_text` does not look at its handle: for every state and every
two handles the returned text and the resulting state are the same, and the pool
(like the thread and the engine state) is as before the call. -/
theorem C16_get_text_ignores_handle {W : Type} (s : State W) (h1 h2 : Nat) :
    (get_text s h1).1 = (get_text s h2).1 ∧
    (get_text s h1).2 = (get_text s h2).2 ∧
    get_text s h1 = (s.g_transcribed, { s with g_transcribed := "" }) ∧
    (get_text s h1).2.g_contexts = s.g_contexts ∧
    (get_text s h1).2.g_worker = s.g_worker ∧
    (get_text s h1).2.world = s.world :=
  ⟨rfl, rfl, rfl, rfl, rfl, rfl⟩

/-! ## A rejected `full_default` -/

theorem full_default_status_cases {W : Type} (E : Engine W) (s : State W) (index : Nat)
    (samples : List float32) (nthreads : Int) :
    (full_default E s index samples nthreads).1 = -1 ∨
    (full_default E s index samples nthreads).1 = -2 ∨
    (full_default E s index samples nthreads).1 = 0 := by
  rw [full_default_fst]
  split
  · exact Or.inl rfl
  · split
    · exact Or.inr (Or.inl rfl)
    · exact Or.inr (Or.inr rfl)

/-- Claim C17.  Whenever `full_default` returns `-1` or `-2`, the resulting state
is exactly the state after the initial join: no thread is held, the pool is as
before the call, and the mailbox holds what it held, followed by the text of the
thread that the join let end (so it is as before the call when no thread was
still running).  The status is always `-1`, `-2` or `0`, and when it is `0` the
mailbox is empty after the call. -/
theorem C17_rejected_full_default {W : Type} (E : Engine W) (s : State W) (index : Nat)
    (samples : List float32) (nthreads : Int) :
    (((full_default E s index samples nthreads).1 = -1 ∨
      (full_default E s index samples nthreads).1 = -2) →
      (full_default E s index samples nthreads).2 = join E s ∧
      (full_default E s index samples nthreads).2.g_worker = none ∧
      (full_default E s index samples nthreads).2.g_contexts = s.g_contexts ∧
      (full_default E s index samples nthreads).2.g_transcribed =
        s.g_transcribed ++ pending_text E s ∧
      ((∀ t, s.g_worker = some t → t.finished = true) →
        (full_default E s index samples nthreads).2 = { s with g_worker := none })) ∧
    ((full_default E s index samples nthreads).1 = -1 ∨
      (full_default E s index samples nthreads).1 = -2 ∨
      (full_default E s index samples nthreads).1 = 0) ∧
    ((full_default E s index samples nthreads).1 = 0 →
      (full_default E s index samples nthreads).2.g_transcribed = "") := by
  refine ⟨?_, full_default_status_cases E s index samples nthreads, ?_⟩
  · intro hrej
    have hne : (full_default E s index samples nthreads).1 ≠ 0 := by
      rcases hrej with h | h <;> rw [h] <;> decide
    have hjoin := (full_default_cases E s index samples nthreads).1 hne
    rw [hjoin]
    refine ⟨rfl, join_g_worker E s, join_g_contexts E s, join_g_transcribed E s, ?_⟩
    intro hidle
    cases hw : s.g_worker with
    | none =>
      rw [join_of_not_joinable E s hw]
      cases s
      simp only at hw
      rw [hw]
    | some t => exact join_of_finished E s t hw (hidle t hw)
  · intro hzero
    exact ((full_default_cases E s index samples nthreads).2 hzero).1

/-! ## The pool across the bound functions -/

theorem init_loop_length {W : Type} (E : Engine W) (path_model : String) (s : State W)
    (rest : List whisper_context_ptr) (i : Nat) :
    (init_loop E path_model s rest i).2.g_contexts.length = s.g_contexts.length := by
  induction rest generalizing i with
  | nil => rfl
  | cons p rest ih =>
    by_cases hp : p = none
    · by_cases hb : (E.whisper_init_from_file_with_params s.world path_model).1 = none
      · simp [init_loop, hp, hb]
      · simp [init_loop, hp, hb]
    · simp only [init_loop, hp, if_false]
      exact ih (i + 1)

theorem init_length {W : Type} (E : Engine W) (s : State W) (path_model : String) :
    (init E s path_model).2.g_contexts.length = s.g_contexts.length := by
  unfold init
  rw [init_loop_length, join_g_contexts]

theorem full_default_g_contexts {W : Type} (E : Engine W) (s : State W) (index : Nat)
    (samples : List float32) (nthreads : Int) :
    (full_default E s index samples nthreads).2.g_contexts = s.g_contexts := by
  by_cases h : (full_default E s index samples nthreads).1 = 0
  · exact ((full_default_cases E s index samples nthreads).2 h).2.1
  · rw [(full_default_cases E s index samples nthreads).1 h]
    exact join_g_contexts E s

theorem step_length {W : Type} (E : Engine W) (s : State W) (op : Op) :
    (step E s op).g_contexts.length = s.g_contexts.length := by
  cases op with
  | init path_model => exact init_length E s path_model
  | free index =>
    simp only [step]
    rw [free_g_contexts, List.length_set]
  | full_default index samples nthreads =>
    simp only [step]
    rw [full_default_g_contexts]
  | get_text index => rfl
  | worker_finish =>
    simp only [step]
    rw [worker_finish_g_contexts]

theorem run_length {W : Type} (E : Engine W) (ops : List Op) (s : State W) :
    (run E s ops).g_contexts.length = s.g_contexts.length := by
  induction ops generalizing s with
  | nil => rfl
  | cons op ops ih =>
    rw [run_cons, ih, step_length]

/-- An event other than `init` leaves a null position null. -/
theorem step_keeps_null {W : Type} (E : Engine W) (s : State W) (op : Op) (i : Nat)
    (hop : Op.is_init op = false) (hnull : s.g_contexts[i]? = some none) :
    (step E s op).g_contexts[i]? = some none := by
  cases op with
  | init path_model => simp [Op.is_init] at hop
  | free index =>
    simp only [step]
    rw [free_g_contexts, List.getElem?_set]
    split
    · split
      · rfl
      · rename_i heq hlt
        rw [← heq, List.getElem?_eq_none (by omega)] at hnull
        exact absurd hnull (by simp)
    · exact hnull
  | full_default index samples nthreads =>
    simp only [step]
    rw [full_default_g_contexts]
    exact hnull
  | get_text index => exact hnull
  | worker_finish =>
    simp only [step]
    rw [worker_finish_g_contexts]
    exact hnull

theorem run_keeps_null {W : Type} (E : Engine W) (ops : List Op) (s : State W) (i : Nat)
    (hops : ∀ op ∈ ops, Op.is_init op = false) (hnull : s.g_contexts[i]? = some none) :
    (run E s ops).g_contexts[i]? = some none := by
  induction ops generalizing s with
  | nil => exact hnull
  | cons op ops ih =>
    rw [run_cons]
    exact ih (step E s op) (fun o ho => hops o (List.mem_cons_of_mem _ ho))
      (step_keeps_null E s op i (hops op (List.mem_cons_self op ops)) hnull)

/-- Claim C15.  For every state whose pool has its four positions and every handle
`h` in `1..4`: after `free(h)`, and after any further events none of which is a
call of `init`, `full_default` on `h` returns `-2`, for every sample buffer and
thread count. -/
theorem C15_freed_handle_rejected {W : Type} (E : Engine W) (s : State W) (h : Nat)
    (samples : List float32) (nthreads : Int) (ops : List Op)
    (hlen : s.g_contexts.length = 4) (h1 : 1 ≤ h) (h4 : h ≤ 4)
    (hops : ∀ op ∈ ops, Op.is_init op = false) :
    (full_default E (free E s h) h samples nthreads).1 = -2 ∧
    (full_default E (run E (free E s h) ops) h samples nthreads).1 = -2 := by
  have hsz : h < SIZE_T_MOD := by
    unfold SIZE_T_MOD
    omega
  have hdec : size_t_dec h = h - 1 := size_t_dec_pos h h1 hsz
  have hfree : (free E s h).g_contexts[h - 1]? = some none := by
    rw [free_g_contexts, hdec]
    simp [List.getElem?_set]
    omega
  have hfreelen : (free E s h).g_contexts.length = 4 := by
    rw [free_g_contexts, List.length_set, hlen]
  have key : ∀ x : State W, x.g_contexts.length = 4 → x.g_contexts[h - 1]? = some none →
      (full_default E x h samples nthreads).1 = -2 := by
    intro x hxlen hxnull
    rw [full_default_fst, hdec, hxlen]
    have hnot : ¬ (h - 1 ≥ 4) := by omega
    have hget : x.g_contexts.getD (h - 1) none = none := by
      simp [List.getD, hxnull]
    simp only [hnot, if_false, hget, if_true]
  refine ⟨key _ hfreelen hfree, key _ ?_ ?_⟩
  · rw [run_length, hfreelen]
  · exact run_keeps_null E ops (free E s h) (h - 1) hops hfree

/-- Witness of claim C15: handle `3`, then a `get_text` and a `free(1)`. -/
theorem C15_freed_handle_rejected_witness :
    ((demo_state [some 7, none, some 3, none] "").g_contexts.length = 4 ∧ 1 ≤ 3 ∧ 3 ≤ 4 ∧
      (∀ op ∈ [Op.get_text 3, Op.free 1], Op.is_init op = false)) ∧
    ((full_default (demo_engine [])
        (free (demo_engine []) (demo_state [some 7, none, some 3, none] "") 3) 3 [] 2).1 = -2 ∧
     (full_default (demo_engine [])
        (run (demo_engine [])
          (free (demo_engine []) (demo_state [some 7, none, some 3, none] "") 3)
          [Op.get_text 3, Op.free 1]) 3 [] 2).1 = -2) :=
  ⟨⟨by decide, by decide, by decide, by decide⟩,
   C15_freed_handle_rejected (demo_engine []) (demo_state [some 7, none, some 3, none] "") 3
     [] 2 [Op.get_text 3, Op.free 1] (by decide) (by decide) (by decide) (by decide)⟩

/-! ## The handles of `init` -/

theorem first_empty_or_full (g : List whisper_context_ptr) :
    (∀ p ∈ g, p ≠ none) ∨
      ∃ k : Nat, g[k]? = some none ∧ ∀ j : Nat, j < k → g[j]? ≠ some none := by
  induction g with
  | nil => exact Or.inl (fun p hp => absurd hp (List.not_mem_nil p))
  | cons q g ih =>
    by_cases hq : q = none
    · exact Or.inr ⟨0, by simp [hq], fun j hj => absurd hj (Nat.not_lt_zero j)⟩
    · rcases ih with hfull | ⟨k, hk, hlt⟩
      · refine Or.inl (fun p hp => ?_)
        rcases List.mem_cons.mp hp with h | h
        · rw [h]; exact hq
        · exact hfull p h
      · refine Or.inr ⟨k + 1, by simpa using hk, fun j hj => ?_⟩
        cases j with
        | zero => simpa using hq
        | succ j =>
          have := hlt j (by omega)
          simpa using this

/-- The two ways `init` can go: the pool is full and only the join happens, or
construction is called once for the first null position. -/
theorem init_cases {W : Type} (E : Engine W) (s : State W) (path_model : String) :
    ((∀ p ∈ s.g_contexts, p ≠ none) ∧ init E s path_model = (0, join E s)) ∨
    ∃ i, i < s.g_contexts.length ∧ s.g_contexts[i]? = some none ∧
      (∀ j, j < i → s.g_contexts[j]? ≠ some none) ∧
      init E s path_model =
        (if (E.whisper_init_from_file_with_params (join E s).world path_model).1 ≠ none
          then (i + 1) % SIZE_T_MOD else 0,
         { join E s with
           g_contexts := s.g_contexts.set i
             (E.whisper_init_from_file_with_params (join E s).world path_model).1
           world := (E.whisper_init_from_file_with_params (join E s).world path_model).2 }) := by
  rcases first_empty_or_full s.g_contexts with hfull | ⟨k, hk, hlt⟩
  · refine Or.inl ⟨hfull, ?_⟩
    unfold init
    exact init_loop_all_occupied E path_model (join E s) (join E s).g_contexts 0
      (by rw [join_g_contexts]; exact hfull)
  · refine Or.inr ⟨k, ?_, hk, hlt, init_of_first_empty E s path_model k hk hlt⟩
    by_contra hc
    rw [List.getElem?_eq_none (by omega)] at hk
    exact absurd hk (by simp)

/-- A handle returned by `init` that is not `0` is the index, plus one, of a
position that holds an engine afterwards. -/
theorem init_handle {W : Type} (E : Engine W) (s : State W) (path_model : String)
    (hlen : s.g_contexts.length = 4) (hne : (init E s path_model).1 ≠ 0) :
    1 ≤ (init E s path_model).1 ∧ (init E s path_model).1 ≤ 4 ∧
    ∃ a, (init E s path_model).2.g_contexts[(init E s path_model).1 - 1]? = some (some a) := by
  rcases init_cases E s path_model with ⟨_, h0⟩ | ⟨i, hi, _, _, heq⟩
  · rw [h0] at hne
    exact absurd rfl hne
  · rw [heq] at hne ⊢
    cases hb : (E.whisper_init_from_file_with_params (join E s).world path_model).1 with
    | none =>
      rw [hb] at hne
      simp at hne
    | some a =>
      have hmod : (i + 1) % SIZE_T_MOD = i + 1 := by
        unfold SIZE_T_MOD
        omega
      simp only [ne_eq, not_false_eq_true, if_true, hmod, reduceCtorEq]
      refine ⟨by omega, by omega, a, ?_⟩
      simp [List.getElem?_set, hi]

/-- Claim C12.  From the statically initialised state, after every finite sequence
of events (calls of `init`, `free`, `full_default` and `get_text`, and the thread
reaching its end), whatever the engine answers: the pool has exactly four
positions, at most four of them hold an engine, and a handle returned by `init`
there is `0` or lies in `1..4`. -/
theorem C12_pool_capacity {W : Type} (E : Engine W) (fuel hw : Nat) (w : W) (s0 : State W)
    (hinit : static_init fuel hw w = some s0) (ops : List Op) :
    s0.g_contexts = [none, none, none, none] ∧
    (run E s0 ops).g_contexts.length = 4 ∧
    occupied (run E s0 ops) ≤ 4 ∧
    (∀ path_model : String, (init E (run E s0 ops) path_model).1 ≠ 0 →
      1 ≤ (init E (run E s0 ops) path_model).1 ∧
      (init E (run E s0 ops) path_model).1 ≤ 4) := by
  have hpool : s0.g_contexts = [none, none, none, none] := by
    unfold static_init at hinit
    cases hm : mpow2 fuel (wrap_int (hw : Int)) with
    | none =>
      rw [hm] at hinit
      exact absurd hinit (by simp)
    | some m =>
      rw [hm] at hinit
      simp only [Option.map_some', Option.some.injEq] at hinit
      rw [← hinit]
      rfl
  have hlen : (run E s0 ops).g_contexts.length = 4 := by
    rw [run_length, hpool]
    rfl
  refine ⟨hpool, hlen, ?_, ?_⟩
  · unfold occupied
    exact hlen ▸ List.countP_le_length _
  · intro path_model hne
    have h := init_handle E (run E s0 ops) path_model hlen hne
    exact ⟨h.1, h.2.1⟩

/-- Claim C18.  For every state whose pool has its four positions, if `init`
returns a handle `h` other than `0`, then `h` lies in `1..4` and a `full_default`
on `h` right after it returns `0`, for every sample buffer and thread count. -/
theorem C18_init_handle_valid {W : Type} (E : Engine W) (s : State W) (path_model : String)
    (hlen : s.g_contexts.length = 4) (hne : (init E s path_model).1 ≠ 0) :
    1 ≤ (init E s path_model).1 ∧ (init E s path_model).1 ≤ 4 ∧
    ∀ (samples : List float32) (nthreads : Int),
      (full_default E (init E s path_model).2 (init E s path_model).1 samples nthreads).1
        = 0 := by
  obtain ⟨h1, h4, a, ha⟩ := init_handle E s path_model hlen hne
  refine ⟨h1, h4, ?_⟩
  intro samples nthreads
  have hlen2 : (init E s path_model).2.g_contexts.length = 4 := by
    rw [init_length, hlen]
  rw [full_default_spawn E (init E s path_model).2 (init E s path_model).1 a samples nthreads
    hlen2 h1 h4 ha]

/-- Witness of claim C12: `demo_initial` is the statically initialised state for
twelve hardware threads. -/
theorem C12_pool_capacity_witness :
    static_init 31 12 ({ constructed := 0, destroyed := 0, transcribed := 0 } : demo_world)
      = some demo_initial ∧
    (demo_initial.g_contexts = [none, none, none, none] ∧
     (run (demo_engine ["a"]) demo_initial demo_ops).g_contexts.length = 4 ∧
     occupied (run (demo_engine ["a"]) demo_initial demo_ops) ≤ 4 ∧
     (∀ path_model : String,
       (init (demo_engine ["a"]) (run (demo_engine ["a"]) demo_initial demo_ops)
         path_model).1 ≠ 0 →
       1 ≤ (init (demo_engine ["a"]) (run (demo_engine ["a"]) demo_initial demo_ops)
         path_model).1 ∧
       (init (demo_engine ["a"]) (run (demo_engine ["a"]) demo_initial demo_ops)
         path_model).1 ≤ 4)) :=
  ⟨by decide,
   C12_pool_capacity (demo_engine ["a"]) 31 12
     { constructed := 0, destroyed := 0, transcribed := 0 } demo_initial (by decide)
     demo_ops⟩

/-- Witness of claim C18: `init` returns the handle `2`. -/
theorem C18_init_handle_valid_witness :
    ((demo_state [some 7, none, some 3, none] "").g_contexts.length = 4 ∧
     (init (demo_engine []) (demo_state [some 7, none, some 3, none] "") "m").1 ≠ 0) ∧
    (1 ≤ (init (demo_engine []) (demo_state [some 7, none, some 3, none] "") "m").1 ∧
     (init (demo_engine []) (demo_state [some 7, none, some 3, none] "") "m").1 ≤ 4 ∧
     ∀ (samples : List float32) (nthreads : Int),
       (full_default (demo_engine [])
         (init (demo_engine []) (demo_state [some 7, none, some 3, none] "") "m").2
         (init (demo_engine []) (demo_state [some 7, none, some 3, none] "") "m").1
         samples nthreads).1 = 0) :=
  ⟨⟨by decide, by decide⟩,
   C18_init_handle_valid (demo_engine []) (demo_state [some 7, none, some 3, none] "") "m"
     (by decide) (by decide)⟩

/-! ## Filling the pool -/

/-- From a pool whose first `j` positions hold an engine and whose other
positions are null, consecutive calls of `init` whose construction succeeds
return `j + 1`, `j + 2`, up to `4`, and `0` from then on. -/
theorem init_handles_from {W : Type} (E : Engine W) (paths : List String)
    (hok : ∀ (w : W), ∀ path_model ∈ paths,
      (E.whisper_init_from_file_with_params w path_model).1 ≠ none)
    (s : State W) (j : Nat) (hlen : s.g_contexts.length = 4)
    (hocc : ∀ i : Nat, i < j → ∃ a, s.g_contexts[i]? = some (some a))
    (hnull : ∀ i : Nat, j ≤ i → i < 4 → s.g_contexts[i]? = some none) :
    init_handles E s paths =
      (List.range paths.length).map (fun i => if j + i < 4 then j + i + 1 else 0) := by
  induction paths generalizing s j with
  | nil => rfl
  | cons path_model paths ih =>
    have hok2 : ∀ (w : W), ∀ q ∈ paths,
        (E.whisper_init_from_file_with_params w q).1 ≠ none :=
      fun w q hq => hok w q (List.mem_cons_of_mem _ hq)
    have hlen2 : (init E s path_model).2.g_contexts.length = 4 := by
      rw [init_length, hlen]
    simp only [init_handles, List.length_cons, List.range_succ_eq_map, List.map_cons,
      List.map_map]
    by_cases hj : j < 4
    · have hfirst : ∀ i : Nat, i < j → s.g_contexts[i]? ≠ some none := by
        intro i hi hc
        obtain ⟨a, ha⟩ := hocc i hi
        rw [ha] at hc
        exact absurd hc (by simp)
      have heq := init_of_first_empty E s path_model j (hnull j (le_refl j) hj) hfirst
      obtain ⟨a, ha⟩ := Option.ne_none_iff_exists'.mp
        (hok (join E s).world path_model (List.mem_cons_self _ _))
      rw [ha] at heq
      have hmod : (j + 1) % SIZE_T_MOD = j + 1 := by
        unfold SIZE_T_MOD
        omega
      simp only [ne_eq, not_false_eq_true, if_true, hmod, reduceCtorEq] at heq
      have hpool : (init E s path_model).2.g_contexts = s.g_contexts.set j (some a) := by
        rw [heq]
      have hih := ih hok2 (init E s path_model).2 (j + 1) hlen2
        (by
          intro i hi
          rw [hpool, List.getElem?_set]
          by_cases hij : j = i
          · subst hij
            simp [hlen, hj]
          · simp only [hij, if_false]
            exact hocc i (by omega))
        (by
          intro i hi1 hi2
          rw [hpool, List.getElem?_set]
          have hij : ¬ j = i := by omega
          simp only [hij, if_false]
          exact hnull i (by omega) hi2)
      rw [hih, heq]
      simp only [Nat.add_zero, hj, if_true, List.cons.injEq, true_and]
      apply List.map_congr_left
      intro i _
      simp only [Function.comp, Nat.succ_eq_add_one]
      have e : j + 1 + i = j + (i + 1) := by omega
      rw [e]
    · have hfull : ∀ q ∈ s.g_contexts, q ≠ none := by
        intro q hq hc
        obtain ⟨i, hi, hiq⟩ := List.getElem_of_mem hq
        obtain ⟨a, ha⟩ := hocc i (by omega)
        rw [List.getElem?_eq_getElem hi, hiq, hc] at ha
        exact absurd ha (by simp)
      have heq : init E s path_model = (0, join E s) := by
        unfold init
        exact init_loop_all_occupied E path_model (join E s) (join E s).g_contexts 0
          (by rw [join_g_contexts]; exact hfull)
      have hpool : (init E s path_model).2.g_contexts = s.g_contexts := by
        rw [heq]
        exact join_g_contexts E s
      have hih := ih hok2 (init E s path_model).2 j hlen2
        (by rw [hpool]; exact hocc) (by rw [hpool]; exact hnull)
      rw [hih, heq]
      have hj0 : ¬ j + 0 < 4 := by omega
      simp only [hj0, if_false, List.cons.injEq, true_and]
      apply List.map_congr_left
      intro i _
      have h1 : ¬ j + i < 4 := by omega
      have h2 : ¬ j + (i + 1) < 4 := by omega
      simp [h1, h2]

theorem handles_shape (m : Nat) :
    (List.range (m + 4)).map (fun i => if 0 + i < 4 then 0 + i + 1 else 0) =
      [1, 2, 3, 4] ++ List.replicate m 0 := by
  apply List.ext_getElem
  · simp
  · intro i h1 h2
    simp only [List.getElem_map, List.getElem_range, Nat.zero_add]
    by_cases hi : i < 4
    · interval_cases i <;> simp
    · simp only [hi, if_false]
      rw [List.getElem_append_right (by simp; omega)]
      simp

theorem static_init_pool {W : Type} (fuel hw : Nat) (w : W) (s0 : State W)
    (hinit : static_init fuel hw w = some s0) :
    s0.g_contexts = [none, none, none, none] ∧ s0.g_worker = none ∧
    s0.g_transcribed = "" ∧ s0.world = w ∧
    mpow2 fuel (wrap_int (hw : Int)) = some s0.MaxThreads := by
  unfold static_init at hinit
  cases hm : mpow2 fuel (wrap_int (hw : Int)) with
  | none =>
    rw [hm] at hinit
    exact absurd hinit (by simp)
  | some m =>
    rw [hm] at hinit
    simp only [Option.map_some', Option.some.injEq] at hinit
    rw [← hinit]
    exact ⟨rfl, rfl, rfl, rfl, rfl⟩

/-- Claim C13.  From the statically initialised state, consecutive calls of `init`
whose construction succeeds return `1`, `2`, `3`, `4` for the first four and `0`
for every further one. -/
theorem C13_first_four_handles {W : Type} (E : Engine W) (fuel hw : Nat) (w : W)
    (s0 : State W) (hinit : static_init fuel hw w = some s0)
    (p1 p2 p3 p4 : String) (more : List String)
    (hok : ∀ (v : W), ∀ path_model ∈ p1 :: p2 :: p3 :: p4 :: more,
      (E.whisper_init_from_file_with_params v path_model).1 ≠ none) :
    init_handles E s0 (p1 :: p2 :: p3 :: p4 :: more) =
      [1, 2, 3, 4] ++ List.replicate more.length 0 := by
  have hpool := (static_init_pool fuel hw w s0 hinit).1
  have h := init_handles_from E (p1 :: p2 :: p3 :: p4 :: more) hok s0 0
    (by rw [hpool]; rfl)
    (fun i hi => absurd hi (Nat.not_lt_zero i))
    (by
      intro i _ hi
      rw [hpool]
      interval_cases i <;> rfl)
  rw [h]
  exact handles_shape more.length

/-- Witness of claim C13: six calls on `demo_initial`. -/
theorem C13_first_four_handles_witness :
    (static_init 31 12 ({ constructed := 0, destroyed := 0, transcribed := 0 } : demo_world)
       = some demo_initial ∧
     (∀ (v : demo_world), ∀ path_model ∈ "m" :: "m" :: "n" :: "m" :: ["k", "m"],
       ((demo_engine []).whisper_init_from_file_with_params v path_model).1 ≠ none)) ∧
    init_handles (demo_engine []) demo_initial ("m" :: "m" :: "n" :: "m" :: ["k", "m"]) =
      [1, 2, 3, 4] ++ List.replicate ["k", "m"].length 0 :=
  ⟨⟨by decide, fun v path_model hp => by
      simp only [List.mem_cons, List.mem_singleton, List.not_mem_nil, or_false] at hp
      rcases hp with h | h | h | h | h | h <;> subst h <;> simp [demo_engine]⟩,
   C13_first_four_handles (demo_engine []) 31 12
     { constructed := 0, destroyed := 0, transcribed := 0 } demo_initial (by decide)
     "m" "m" "n" "m" ["k", "m"] (fun v path_model hp => by
      simp only [List.mem_cons, List.mem_singleton, List.not_mem_nil, or_false] at hp
      rcases hp with h | h | h | h | h | h <;> subst h <;> simp [demo_engine])⟩

/-! ## Reuse of a freed position -/

/-- Claim C14.  For every state whose pool has its four positions and every handle
`h` in `1..4`: an `init` right after `free(h)`, whose construction returns a live
instance, returns a handle in `1..h`; it returns `h` itself when every position
below `h - 1` holds an engine (so always on a full pool). -/
theorem C14_slot_reuse {W : Type} (E : Engine W) (s : State W) (h a : Nat)
    (path_model : String) (hlen : s.g_contexts.length = 4) (h1 : 1 ≤ h) (h4 : h ≤ 4)
    (hbuilt : (E.whisper_init_from_file_with_params (free E s h).world path_model).1
      = some a) :
    (1 ≤ (init E (free E s h) path_model).1 ∧ (init E (free E s h) path_model).1 ≤ h) ∧
    ((∀ j : Nat, j < h - 1 → ∃ b, s.g_contexts[j]? = some (some b)) →
      (init E (free E s h) path_model).1 = h) ∧
    ((∀ j : Nat, j < 4 → ∃ b, s.g_contexts[j]? = some (some b)) →
      (init E (free E s h) path_model).1 = h) := by
  have hsz : h < SIZE_T_MOD := by
    unfold SIZE_T_MOD
    omega
  have hdec : size_t_dec h = h - 1 := size_t_dec_pos h h1 hsz
  have hpool : (free E s h).g_contexts = s.g_contexts.set (h - 1) none := by
    rw [free_g_contexts, hdec]
  have hnull : (free E s h).g_contexts[h - 1]? = some none := by
    rw [hpool]
    simp [List.getElem?_set]
    omega
  have hjoin : join E (free E s h) = free E s h :=
    join_of_not_joinable E (free E s h) (free_g_worker E s h)
  have hmem : (none : whisper_context_ptr) ∈ (free E s h).g_contexts :=
    List.mem_iff_getElem?.mpr ⟨h - 1, hnull⟩
  rcases init_cases E (free E s h) path_model with ⟨hfull, _⟩ | ⟨i, hi, hinull, hifirst, heq⟩
  · exact absurd rfl (hfull none hmem)
  · rw [hjoin, hbuilt] at heq
    have hile : i ≤ h - 1 := by
      by_contra hc
      exact hifirst (h - 1) (by omega) hnull
    have hmod : (i + 1) % SIZE_T_MOD = i + 1 := by
      unfold SIZE_T_MOD
      omega
    simp only [ne_eq, not_false_eq_true, if_true, hmod, reduceCtorEq] at heq
    have hval : (init E (free E s h) path_model).1 = i + 1 := by rw [heq]
    have hexact : (∀ j : Nat, j < h - 1 → ∃ b, s.g_contexts[j]? = some (some b)) →
        (init E (free E s h) path_model).1 = h := by
      intro hbelow
      have hige : h - 1 ≤ i := by
        by_contra hc
        obtain ⟨b, hb⟩ := hbelow i (by omega)
        rw [hpool, List.getElem?_set] at hinull
        have hne : ¬ h - 1 = i := by omega
        simp only [hne, if_false] at hinull
        rw [hb] at hinull
        exact absurd hinull (by simp)
      rw [hval]
      omega
    refine ⟨⟨by rw [hval]; omega, by rw [hval]; omega⟩, hexact, ?_⟩
    intro hall
    exact hexact (fun j hj => hall j (by omega))

/-- Witness of claim C14: on a full pool, `free(2)` and then `init` gives `2`. -/
theorem C14_slot_reuse_witness :
    ((demo_state [some 1, some 2, some 3, some 4] "").g_contexts.length = 4 ∧ 1 ≤ 2 ∧
     2 ≤ 4 ∧
     ((demo_engine []).whisper_init_from_file_with_params
        (free (demo_engine []) (demo_state [some 1, some 2, some 3, some 4] "") 2).world
        "m").1 = some 1) ∧
    ((1 ≤ (init (demo_engine [])
          (free (demo_engine []) (demo_state [some 1, some 2, some 3, some 4] "") 2) "m").1 ∧
      (init (demo_engine [])
          (free (demo_engine []) (demo_state [some 1, some 2, some 3, some 4] "") 2) "m").1
        ≤ 2) ∧
     ((∀ j : Nat, j < 2 - 1 →
        ∃ b, (demo_state [some 1, some 2, some 3, some 4] "").g_contexts[j]? = some (some b)) →
      (init (demo_engine [])
          (free (demo_engine []) (demo_state [some 1, some 2, some 3, some 4] "") 2) "m").1
        = 2) ∧
     ((∀ j : Nat, j < 4 →
        ∃ b, (demo_state [some 1, some 2, some 3, some 4] "").g_contexts[j]? = some (some b)) →
      (init (demo_engine [])
          (free (demo_engine []) (demo_state [some 1, some 2, some 3, some 4] "") 2) "m").1
        = 2)) ∧
    (init (demo_engine [])
        (free (demo_engine []) (demo_state [some 1, some 2, some 3, some 4] "") 2) "m").1 = 2 :=
  ⟨⟨by decide, by decide, by decide, by decide⟩,
   C14_slot_reuse (demo_engine []) (demo_state [some 1, some 2, some 3, some 4] "") 2 1 "m"
     (by decide) (by decide) (by decide) (by decide),
   by decide⟩

/-! ## More on `mpow2` -/

theorem wrap_int_range (x : Int) : -2 ^ 31 ≤ wrap_int x ∧ wrap_int x < 2 ^ 31 := by
  unfold wrap_int
  omega

/-- Once `p` has wrapped around to `0` the loop never ends. -/
theorem mpow2_loop_zero (n : Int) (hn : 0 ≤ n) (fuel : Nat) : mpow2_loop fuel 0 n = none := by
  induction fuel with
  | zero => rfl
  | succ fuel ih =>
    have hw : wrap_int (0 * 2) = 0 := by decide
    simp only [mpow2_loop, hn, if_true, hw]
    exact ih

/-- Whenever the loop started at a power of two ends, it ends at a power of two. -/
theorem mpow2_loop_exit (n : Int) (fuel : Nat) :
    ∀ (j : Nat) (p : Int), j ≤ 30 → mpow2_loop fuel ((2 : Int) ^ j) n = some p →
      ∃ k : Nat, p = (2 : Int) ^ k := by
  induction fuel with
  | zero =>
    intro j p _ h
    simp [mpow2_loop] at h
  | succ fuel ih =>
    intro j p hj h
    by_cases hle : (2 : Int) ^ j ≤ n
    · simp only [mpow2_loop, hle, if_true] at h
      by_cases hj30 : j < 30
      · have hpow : (2 : Int) ^ j ≤ (2 : Int) ^ 29 :=
          pow_le_pow_right₀ (by decide) (by omega)
        have hpos : (0 : Int) < (2 : Int) ^ j := by positivity
        have hw : wrap_int ((2 : Int) ^ j * 2) = (2 : Int) ^ (j + 1) := by
          rw [pow_succ]
          apply wrap_int_of_small
          · omega
          · norm_num at hpow
            omega
        rw [hw] at h
        exact ih (j + 1) p (by omega) h
      · have hj2 : j = 30 := by omega
        subst hj2
        have hw : wrap_int ((2 : Int) ^ 30 * 2) = -2 ^ 31 := by decide
        rw [hw] at h
        cases fuel with
        | zero => simp [mpow2_loop] at h
        | succ fuel =>
          have hn0 : (0 : Int) ≤ n := by
            norm_num at hle
            omega
          have hle2 : (-2 ^ 31 : Int) ≤ n := by omega
          have hw2 : wrap_int ((-2 ^ 31 : Int) * 2) = 0 := by decide
          simp only [mpow2_loop, hle2, if_true, hw2] at h
          rw [mpow2_loop_zero n hn0 fuel] at h
          exact absurd h (by simp)
    · simp only [mpow2_loop, hle, if_false, Option.some.injEq] at h
      exact ⟨j, h.symm⟩

/-- Whatever `mpow2` returns is not negative. -/
theorem mpow2_nonneg (fuel : Nat) (n m : Int) (h : mpow2 fuel n = some m) : 0 ≤ m := by
  unfold mpow2 at h
  cases hl : mpow2_loop fuel 1 n with
  | none =>
    rw [hl] at h
    exact absurd h (by simp)
  | some p =>
    rw [hl] at h
    simp only [Option.map_some', Option.some.injEq] at h
    have hl2 : mpow2_loop fuel ((2 : Int) ^ 0) n = some p := by
      rw [pow_zero]
      exact hl
    obtain ⟨k, hk⟩ := mpow2_loop_exit n fuel 0 p (by omega) hl2
    have hpos : (0 : Int) ≤ p := by
      rw [hk]
      positivity
    rw [← h]
    exact Int.tdiv_nonneg hpos (by decide)

theorem mpow2_of_nonpos (fuel : Nat) (n : Int) (hn : n ≤ 0) (hfuel : 1 ≤ fuel) :
    mpow2 fuel n = some 0 ∧ mpow2_strict fuel n = some 0 := by
  obtain ⟨f, hf⟩ : ∃ f, fuel = f + 1 := ⟨fuel - 1, by omega⟩
  subst hf
  have hnot : ¬ (1 : Int) ≤ n := by omega
  constructor
  · simp only [mpow2, mpow2_loop, hnot, if_false, Option.map_some']
    rfl
  · simp only [mpow2_strict, mpow2_loop_strict, hnot, if_false, Option.map_some']
    rfl

/-- With `1 ≤ n < 2 ^ 30` no product of the loop leaves the range of `int`. -/
theorem mpow2_loop_strict_eq (n : Int) (hn2 : n < 2 ^ 30) :
    ∀ (d j fuel : Nat), (2 : Int) ^ j ≤ 2 * n → j + d = 31 → d ≤ fuel →
      mpow2_loop_strict fuel ((2 : Int) ^ j) n = mpow2_loop fuel ((2 : Int) ^ j) n := by
  intro d
  induction d with
  | zero =>
    intro j fuel hj hd _
    have hj31 : j = 31 := by omega
    subst hj31
    norm_num at hj
    omega
  | succ d ih =>
    intro j fuel hj hd hfuel
    obtain ⟨f, hf⟩ : ∃ f, fuel = f + 1 := ⟨fuel - 1, by omega⟩
    subst hf
    have hpos : (0 : Int) < (2 : Int) ^ j := by positivity
    by_cases hle : (2 : Int) ^ j ≤ n
    · have hsucc : (2 : Int) ^ (j + 1) = (2 : Int) ^ j * 2 := pow_succ 2 j
      have hw : wrap_int ((2 : Int) ^ j * 2) = (2 : Int) ^ j * 2 := by
        apply wrap_int_of_small <;> omega
      have hrange : -2 ^ 31 ≤ (2 : Int) ^ j * 2 ∧ (2 : Int) ^ j * 2 < 2 ^ 31 := by
        constructor <;> omega
      simp only [mpow2_loop, mpow2_loop_strict, hle, if_true, hw, hrange, and_self]
      rw [← hsucc]
      exact ih (j + 1) f (by omega) (by omega) (by omega)
    · simp only [mpow2_loop, mpow2_loop_strict, hle, if_false]

/-! ## `MaxThreads` never changes -/

theorem step_MaxThreads {W : Type} (E : Engine W) (s : State W) (op : Op) :
    (step E s op).MaxThreads = s.MaxThreads := by
  cases op with
  | init path_model =>
    simp only [step, init]
    rw [(init_loop_frame E path_model (join E s) (join E s).g_contexts 0).2.2,
      join_MaxThreads]
  | free index =>
    simp only [step, free]
    split <;> exact join_MaxThreads E s
  | full_default index samples nthreads =>
    simp only [step, full_default]
    split
    · exact join_MaxThreads E s
    · split <;> exact join_MaxThreads E s
  | get_text index => rfl
  | worker_finish => exact worker_finish_MaxThreads E s

theorem run_MaxThreads {W : Type} (E : Engine W) (ops : List Op) (s : State W) :
    (run E s ops).MaxThreads = s.MaxThreads := by
  induction ops generalizing s with
  | nil => rfl
  | cons op ops ih => rw [run_cons, ih, step_MaxThreads]

/-- Claim C19.  For every state whose pool has its four positions, every handle in
`1..4` whose position holds an engine and every thread count `t` other than `-1`,
`full_default` returns `0` and spawns a thread whose frozen `n_threads` is
`min(t, min(16, MaxThreads))`: it exceeds neither `16` nor `MaxThreads`, it is `t`
whenever `t ≤ min(16, MaxThreads)`, and hence a `t ≤ 0` is frozen unchanged as soon
as `MaxThreads` is not negative, which holds in every state reached from static
initialisation. -/
theorem C19_requested_thread_count {W : Type} (E : Engine W) (s : State W) (index a : Nat)
    (samples : List float32) (t : Int) (hlen : s.g_contexts.length = 4)
    (h1 : 1 ≤ index) (h4 : index ≤ 4) (hocc : s.g_contexts[index - 1]? = some (some a))
    (ht : t ≠ -1) :
    (full_default E s index samples t).1 = 0 ∧
    (∃ th, (full_default E s index samples t).2.g_worker = some th ∧
      th.finished = false ∧
      th.params.n_threads = min t (min 16 s.MaxThreads) ∧
      th.params.n_threads ≤ 16 ∧
      th.params.n_threads ≤ s.MaxThreads ∧
      (t ≤ min 16 s.MaxThreads → th.params.n_threads = t) ∧
      (0 ≤ s.MaxThreads → t ≤ 0 → th.params.n_threads = t)) ∧
    (∀ (fuel hw : Nat) (w : W) (s0 : State W) (ops : List Op),
      static_init fuel hw w = some s0 → 0 ≤ (run E s0 ops).MaxThreads) := by
  rw [full_default_spawn E s index a samples t hlen h1 h4 hocc]
  refine ⟨rfl, ⟨_, rfl, rfl, ?_, ?_, ?_, ?_, ?_⟩, ?_⟩
  · simp only [ht, if_false]
  · simp only [ht, if_false]
    exact le_trans (min_le_right _ _) (min_le_left _ _)
  · simp only [ht, if_false]
    exact le_trans (min_le_right _ _) (min_le_right _ _)
  · intro hle
    simp only [ht, if_false]
    exact min_eq_left hle
  · intro hmax ht0
    simp only [ht, if_false]
    exact min_eq_left (le_min (by omega) (by omega))
  · intro fuel hw w s0 ops hinit
    rw [run_MaxThreads]
    exact mpow2_nonneg fuel _ _ (static_init_pool fuel hw w s0 hinit).2.2.2.2

/-- Witness of claim C19: the thread count `-2` on handle `1` of `demo_old`, whose
`MaxThreads` is `8`, is frozen as `-2`. -/
theorem C19_requested_thread_count_witness :
    (demo_old.g_contexts.length = 4 ∧ 1 ≤ 1 ∧ 1 ≤ 4 ∧
      demo_old.g_contexts[1 - 1]? = some (some 1) ∧ (-2 : Int) ≠ -1) ∧
    ((full_default demo_two demo_old 1 [] (-2)).1 = 0 ∧
     (∃ th, (full_default demo_two demo_old 1 [] (-2)).2.g_worker = some th ∧
       th.finished = false ∧
       th.params.n_threads = min (-2) (min 16 demo_old.MaxThreads) ∧
       th.params.n_threads ≤ 16 ∧
       th.params.n_threads ≤ demo_old.MaxThreads ∧
       ((-2 : Int) ≤ min 16 demo_old.MaxThreads → th.params.n_threads = -2) ∧
       (0 ≤ demo_old.MaxThreads → (-2 : Int) ≤ 0 → th.params.n_threads = -2)) ∧
     (∀ (fuel hw : Nat) (w : demo_world) (s0 : State demo_world) (ops : List Op),
       static_init fuel hw w = some s0 → 0 ≤ (run demo_two s0 ops).MaxThreads)) ∧
    (full_default demo_two demo_old 1 [] (-2)).2.g_worker =
      some { index := 0
             params :=
               { strategy := whisper_sampling_strategy.WHISPER_SAMPLING_GREEDY
                 n_threads := -2, offset_ms := 0, translate := false,
                 print_special := false, print_progress := false,
                 print_realtime := false, print_timestamps := false, language := "en" }
             pcmf32 := []
             finished := false } :=
  ⟨⟨by decide, by decide, by decide, by decide, by decide⟩,
   C19_requested_thread_count demo_two demo_old 1 1 [] (-2) (by decide) (by decide)
     (by decide) (by decide) (by decide),
   by decide⟩

theorem mpow2_strict_eq (n : Int) (hn2 : n < 2 ^ 30) (fuel : Nat) (hfuel : 31 ≤ fuel) :
    mpow2_strict fuel n = mpow2 fuel n := by
  by_cases hn : n ≤ 0
  · have h := mpow2_of_nonpos fuel n hn (by omega)
    rw [h.1, h.2]
  · unfold mpow2_strict mpow2
    have h := mpow2_loop_strict_eq n hn2 31 0 fuel (by omega) (by omega) hfuel
    rw [pow_zero] at h
    rw [h]

/-- Claim C20.  For every 32-bit `int` `n < 2 ^ 30` and fuel for 31 evaluations of
the loop condition, `mpow2` returns a value, and the same value when overflow has
no value (no `p *= 2` leaves the range of `int`).  For `n ≥ 1` the value is the
power of two `2 ^ k` with `2 ^ k ≤ n < 2 * 2 ^ k`, and `k` is the only such
exponent; for `n ≤ 0` the value is `0`.  With a hardware parallelism of `0` static
initialisation gives `MaxThreads = 0`, and then `full_default` with
`nthreads = -1` on a handle whose position holds an engine freezes
`n_threads = 0`. -/
theorem C20_mpow2_total (n : Int) (fuel : Nat) (hlo : -2 ^ 31 ≤ n) (hhi : n < 2 ^ 30)
    (hfuel : 31 ≤ fuel) :
    (∃ m : Int, mpow2 fuel n = some m) ∧
    mpow2_strict fuel n = mpow2 fuel n ∧
    (1 ≤ n → ∃ k : Nat, mpow2 fuel n = some ((2 : Int) ^ k) ∧ (2 : Int) ^ k ≤ n ∧
      n < 2 * (2 : Int) ^ k ∧
      ∀ m : Nat, (2 : Int) ^ m ≤ n → n < 2 * (2 : Int) ^ m → m = k) ∧
    (n ≤ 0 → mpow2 fuel n = some 0) ∧
    (∀ (W : Type) (w : W), ∃ s0 : State W,
      static_init fuel 0 w = some s0 ∧ s0.MaxThreads = 0) ∧
    (∀ (W : Type) (E : Engine W) (s : State W) (index a : Nat) (samples : List float32),
      s.MaxThreads = 0 → s.g_contexts.length = 4 → 1 ≤ index → index ≤ 4 →
      s.g_contexts[index - 1]? = some (some a) →
      (full_default E s index samples (-1)).1 = 0 ∧
      ∃ t, (full_default E s index samples (-1)).2.g_worker = some t ∧
        t.params.n_threads = 0) := by
  have hpos : 1 ≤ n → ∃ k : Nat, mpow2 fuel n = some ((2 : Int) ^ k) ∧ (2 : Int) ^ k ≤ n ∧
      n < 2 * (2 : Int) ^ k ∧
      ∀ m : Nat, (2 : Int) ^ m ≤ n → n < 2 * (2 : Int) ^ m → m = k := by
    intro hn1
    obtain ⟨k, hk, hlo2, hhi2⟩ := mpow2_spec n hn1 hhi fuel hfuel
    have hhi3 : n < 2 * (2 : Int) ^ k := by
      rw [pow_succ] at hhi2
      omega
    refine ⟨k, hk, hlo2, hhi3, ?_⟩
    intro m hm1 hm2
    have hA : (2 : Int) ^ m < (2 : Int) ^ (k + 1) := lt_of_le_of_lt hm1 hhi2
    have hB : (2 : Int) ^ k < (2 : Int) ^ (m + 1) := by
      rw [pow_succ]
      omega
    have hA2 : m < k + 1 := (pow_lt_pow_iff_right₀ (by decide)).mp hA
    have hB2 : k < m + 1 := (pow_lt_pow_iff_right₀ (by decide)).mp hB
    omega
  have hzero : mpow2 fuel (wrap_int ((0 : Nat) : Int)) = some 0 := by
    have hw : wrap_int ((0 : Nat) : Int) = 0 := by decide
    rw [hw]
    exact (mpow2_of_nonpos fuel 0 (le_refl 0) (by omega)).1
  refine ⟨?_, mpow2_strict_eq n hhi fuel hfuel, hpos, ?_, ?_, ?_⟩
  · by_cases hn : n ≤ 0
    · exact ⟨0, (mpow2_of_nonpos fuel n hn (by omega)).1⟩
    · obtain ⟨k, hk, _⟩ := hpos (by omega)
      exact ⟨_, hk⟩
  · intro hn
    exact (mpow2_of_nonpos fuel n hn (by omega)).1
  · intro W w
    unfold static_init
    rw [hzero]
    exact ⟨_, rfl, rfl⟩
  · intro W E s index a samples hmax hlen h1 h4 hocc
    rw [full_default_spawn E s index a samples (-1) hlen h1 h4 hocc]
    refine ⟨rfl, _, rfl, ?_⟩
    simp only [if_true, hmax]
    decide

/-- Witness of claim C20: `mpow2(0) = 0`. -/
theorem C20_mpow2_total_witness :
    ((-2 ^ 31 : Int) ≤ 0 ∧ (0 : Int) < 2 ^ 30 ∧ 31 ≤ 31) ∧
    ((∃ m : Int, mpow2 31 0 = some m) ∧
     mpow2_strict 31 0 = mpow2 31 0 ∧
     ((1 : Int) ≤ 0 → ∃ k : Nat, mpow2 31 0 = some ((2 : Int) ^ k) ∧ (2 : Int) ^ k ≤ 0 ∧
       (0 : Int) < 2 * (2 : Int) ^ k ∧
       ∀ m : Nat, (2 : Int) ^ m ≤ 0 → (0 : Int) < 2 * (2 : Int) ^ m → m = k) ∧
     ((0 : Int) ≤ 0 → mpow2 31 0 = some 0) ∧
     (∀ (W : Type) (w : W), ∃ s0 : State W,
       static_init 31 0 w = some s0 ∧ s0.MaxThreads = 0) ∧
     (∀ (W : Type) (E : Engine W) (s : State W) (index a : Nat) (samples : List float32),
       s.MaxThreads = 0 → s.g_contexts.length = 4 → 1 ≤ index → index ≤ 4 →
       s.g_contexts[index - 1]? = some (some a) →
       (full_default E s index samples (-1)).1 = 0 ∧
       ∃ t, (full_default E s index samples (-1)).2.g_worker = some t ∧
         t.params.n_threads = 0)) ∧
    mpow2 31 0 = some 0 ∧ mpow2 31 12 = some 8 ∧ mpow2 31 (-5) = some 0 :=
  ⟨⟨by decide, by decide, by decide⟩,
   C20_mpow2_total 0 31 (by decide) (by decide) (by decide),
   by decide, by decide, by decide⟩

/-! ## Single flight -/

theorem running_of_not_joinable {W : Type} (s : State W) (h : s.g_worker = none) :
    running s = false := by
  unfold running
  rw [h]

theorem running_worker_finish {W : Type} (E : Engine W) (s : State W) :
    running (worker_finish E s) = false := by
  rcases idle_or_running s with hidle | ⟨t, ht, hf⟩
  · rw [worker_finish_of_idle E s hidle]
    unfold running
    cases hw : s.g_worker with
    | none => rfl
    | some u => simp [hidle u hw]
  · unfold running
    rw [(worker_finish_g_transcribed_of_running E s t ht hf).2]
    rfl

theorem init_join {W : Type} (E : Engine W) (s : State W) (path_model : String) :
    init E (join E s) path_model = init E s path_model := by
  unfold init
  rw [join_join]

theorem free_join {W : Type} (E : Engine W) (s : State W) (index : Nat) :
    free E (join E s) index = free E s index := by
  unfold free
  rw [join_join]

theorem full_default_join {W : Type} (E : Engine W) (s : State W) (index : Nat)
    (samples : List float32) (nthreads : Int) :
    full_default E (join E s) index samples nthreads =
      full_default E s index samples nthreads := by
  unfold full_default
  rw [join_join]

/-- The thread events of one event, and whether a body is running afterwards. -/
theorem step_events_cases {W : Type} (E : Engine W) (s : State W) (op : Op) :
    (step_events E s op = join_events s ∧ running (step E s op) = false ∧
      Op.is_get_text op = false) ∨
    (step_events E s op = join_events s ++ [Event.task_started] ∧
      running (step E s op) = true) ∨
    (step_events E s op = [] ∧ running (step E s op) = running s) := by
  cases op with
  | init path_model =>
    exact Or.inl ⟨rfl, running_of_not_joinable _ (init_g_worker E s path_model), rfl⟩
  | free index =>
    exact Or.inl ⟨rfl, running_of_not_joinable _ (free_g_worker E s index), rfl⟩
  | full_default index samples nthreads =>
    by_cases h0 : (full_default E s index samples nthreads).1 = 0
    · refine Or.inr (Or.inl ⟨by simp [step_events, h0], ?_⟩)
      obtain ⟨_, _, _, t, ht, hf, _, _⟩ :=
        (full_default_cases E s index samples nthreads).2 h0
      simp only [step, running, ht, hf]
      rfl
    · refine Or.inl ⟨by simp [step_events, h0], ?_, rfl⟩
      simp only [step]
      rw [(full_default_cases E s index samples nthreads).1 h0]
      exact running_of_not_joinable _ (join_g_worker E s)
  | get_text index => exact Or.inr (Or.inr ⟨rfl, rfl⟩)
  | worker_finish => exact Or.inl ⟨rfl, running_worker_finish E s, rfl⟩

theorem alternates_join_events {W : Type} (s : State W) (rest : List Event) :
    alternates (running s) (join_events s ++ rest) = alternates false rest := by
  unfold join_events
  cases hr : running s <;> simp [alternates]

theorem trace_alternates {W : Type} (E : Engine W) (ops : List Op) (s : State W) :
    alternates (running s) (trace E s ops) = true := by
  induction ops generalizing s with
  | nil => cases hr : running s <;> rfl
  | cons op ops ih =>
    simp only [trace]
    rcases step_events_cases E s op with ⟨hev, hrun, _⟩ | ⟨hev, hrun⟩ | ⟨hev, hrun⟩
    · rw [hev, alternates_join_events, ← hrun]
      exact ih (step E s op)
    · have h := ih (step E s op)
      rw [hrun] at h
      rw [hev, List.append_assoc, alternates_join_events]
      simpa [alternates] using h
    · rw [hev, List.nil_append, ← hrun]
      exact ih (step E s op)

theorem trace_count {W : Type} (E : Engine W) (ops : List Op) (s : State W) :
    (trace E s ops).count Event.task_started + (if running s then 1 else 0) =
      (trace E s ops).count Event.task_ended + (if running (run E s ops) then 1 else 0) := by
  induction ops generalizing s with
  | nil => rfl
  | cons op ops ih =>
    have h := ih (step E s op)
    simp only [trace, run_cons, List.count_append]
    rcases step_events_cases E s op with ⟨hev, hrun, _⟩ | ⟨hev, hrun⟩ | ⟨hev, hrun⟩
    · rw [hrun] at h
      rw [hev]
      unfold join_events
      cases hr : running s <;> simp at h ⊢ <;> omega
    · rw [hrun] at h
      rw [hev]
      unfold join_events
      cases hr : running s <;> simp at h ⊢ <;> omega
    · rw [hrun] at h
      rw [hev]
      simp only [List.count_nil, Nat.zero_add]
      exact h

/-- On the path that returns `0`, the new thread is put into the joined state. -/
theorem full_default_success_state {W : Type} (E : Engine W) (s : State W) (index : Nat)
    (samples : List float32) (nthreads : Int)
    (h0 : (full_default E s index samples nthreads).1 = 0) :
    ∃ t, (full_default E s index samples nthreads).2 =
        { join E s with g_transcribed := "", g_worker := some t } ∧
      t.finished = false ∧ t.index = size_t_dec index ∧ t.pcmf32 = samples := by
  unfold full_default at h0 ⊢
  simp only at h0 ⊢
  split at h0
  · exact absurd (show (-1 : Int) = 0 from h0) (by decide)
  · split at h0
    · exact absurd (show (-2 : Int) = 0 from h0) (by decide)
    · rename_i hr ho
      simp only [hr, ho, if_false]
      exact ⟨_, rfl, rfl, rfl, rfl⟩

/-- Claim C11.  In every state, `init`, `free` and `full_default` do what they do
on the joined state, in which no thread is held or running, the pool is as before
and the text of the earlier thread has been appended to the mailbox; a
`full_default` that returns `0` puts its new thread into that joined state.
Hence in every run the thread events alternate: no thread is started while
another is still running, and the threads started so far are the threads ended so
far plus the one that may be running. -/
theorem C11_single_flight {W : Type} (E : Engine W) (s : State W) :
    (∀ path_model : String, init E s path_model = init E (join E s) path_model) ∧
    (∀ index : Nat, free E s index = free E (join E s) index) ∧
    (∀ (index : Nat) (samples : List float32) (nthreads : Int),
      full_default E s index samples nthreads =
        full_default E (join E s) index samples nthreads) ∧
    ((join E s).g_worker = none ∧ running (join E s) = false ∧
      (join E s).g_contexts = s.g_contexts ∧
      (join E s).g_transcribed = s.g_transcribed ++ pending_text E s) ∧
    (∀ (index : Nat) (samples : List float32) (nthreads : Int),
      (full_default E s index samples nthreads).1 = 0 →
      ∃ t, (full_default E s index samples nthreads).2 =
          { join E s with g_transcribed := "", g_worker := some t } ∧
        t.finished = false) ∧
    (∀ ops : List Op, alternates (running s) (trace E s ops) = true) ∧
    (∀ ops : List Op,
      (trace E s ops).count Event.task_started + (if running s then 1 else 0) =
        (trace E s ops).count Event.task_ended +
          (if running (run E s ops) then 1 else 0)) ∧
    (∀ ops : List Op, running s = false →
      (trace E s ops).count Event.task_started ≤
        (trace E s ops).count Event.task_ended + 1) := by
  refine ⟨fun path_model => (init_join E s path_model).symm,
    fun index => (free_join E s index).symm,
    fun index samples nthreads => (full_default_join E s index samples nthreads).symm,
    ⟨join_g_worker E s, running_of_not_joinable _ (join_g_worker E s),
      join_g_contexts E s, join_g_transcribed E s⟩, ?_,
    fun ops => trace_alternates E ops s, fun ops => trace_count E ops s, ?_⟩
  · intro index samples nthreads h0
    obtain ⟨t, ht, hf, _, _⟩ := full_default_success_state E s index samples nthreads h0
    exact ⟨t, ht, hf⟩
  · intro ops hidle
    have h := trace_count E ops s
    rw [hidle] at h
    simp only [Bool.false_eq_true, if_false, Nat.add_zero] at h
    rw [h]
    split <;> omega

/-- The thread events of two jobs submitted back to back, the second while the
first is still running: the join inside the second `full_default` ends the first
thread before the second is started. -/
theorem trace_two_jobs :
    trace demo_two (demo_state [some 1, none, none, none] "")
      [Op.full_default 1 [] (-1), Op.full_default 1 [] (-1), Op.get_text 1, Op.free 9] =
      [Event.task_started, Event.task_ended, Event.task_started, Event.task_ended] := by
  decide

end WhisperWasm
